import Mathlib

/-
  Verification of the bulletformat board-record library.

  Shallow embedding conventions:
  * Rust u64 / u8 / u16 values are Lean Nat values; where overflow or
    truncation can occur in the source, it is modelled explicitly with
    `% 2 ^ w` (release-mode wrapping semantics).
  * Rust i16 values are Lean Int values in the range [-32768, 32767];
    the one overflowing operation in the source (negating an i16) is
    modelled by the explicit wrapping negation wrapNeg16.
  * Fallible code (Result, array-index panics) is modelled with
    Except / Option; a panic inside an iterator is modelled as the
    whole decoded sequence being none.
-/

namespace BulletFmt

/-- 16-bit two-complement wrapping negation, the semantics of the
i16 negations `score = -score` in the source. -/
def wrapNeg16 (x : Int) : Int := (2 ^ 15 - x) % 2 ^ 16 - 2 ^ 15

/-- Number of trailing zero bits, the embedding of `u64::trailing_zeros`
(which returns 64 on input 0). -/
def ctz (n : Nat) : Nat :=
  if _h : n = 0 then 64
  else if _h2 : n % 2 = 1 then 0
  else ctz (n / 2) + 1
termination_by n
decreasing_by omega

/-- Population count of a natural number. -/
def pop (n : Nat) : Nat :=
  if _h : n = 0 then 0
  else n % 2 + pop (n / 2)
termination_by n
decreasing_by omega

/-- The embedding of `occ &= occ - 1`, clearing the lowest set bit. -/
def clearLow (n : Nat) : Nat := n &&& (n - 1)

theorem ctz_odd {n : Nat} (h : n % 2 = 1) : ctz n = 0 := by
  have hn : n ≠ 0 := by omega
  rw [ctz]
  simp [hn, h]

theorem ctz_even {n : Nat} (hn : n ≠ 0) (h : n % 2 = 0) :
    ctz n = ctz (n / 2) + 1 := by
  rw [ctz]
  simp [hn, h]

theorem pop_zero : pop 0 = 0 := by rw [pop]; simp

theorem pop_eq {n : Nat} (hn : n ≠ 0) : pop n = n % 2 + pop (n / 2) := by
  rw [pop]; simp [hn]

theorem pop_even {n : Nat} (h : n % 2 = 0) : pop n = pop (n / 2) := by
  rcases Nat.eq_zero_or_pos n with h0 | h0
  · subst h0; simp [pop_zero]
  · rw [pop_eq (by omega), h]; omega

theorem testBit_ctz {n : Nat} (hn : n ≠ 0) : n.testBit (ctz n) = true := by
  induction n using Nat.strong_induction_on with
  | _ n ih =>
    rcases Nat.even_or_odd n with he | ho
    · have h2 : n % 2 = 0 := Nat.even_iff.mp he
      have hhalf : n / 2 ≠ 0 := by omega
      rw [ctz_even hn h2, Nat.testBit_succ]
      exact ih (n / 2) (by omega) hhalf
    · have h2 : n % 2 = 1 := Nat.odd_iff.mp ho
      rw [ctz_odd h2, Nat.testBit_zero]
      simp [h2]

theorem testBit_lt_ctz {n j : Nat} (hj : j < ctz n) : n.testBit j = false := by
  induction n using Nat.strong_induction_on generalizing j with
  | _ n ih =>
    rcases Nat.eq_zero_or_pos n with h0 | h0
    · subst h0; exact Nat.zero_testBit j
    · rcases Nat.even_or_odd n with he | ho
      · have h2 : n % 2 = 0 := Nat.even_iff.mp he
        rw [ctz_even (by omega) h2] at hj
        cases j with
        | zero => rw [Nat.testBit_zero]; simp [h2]
        | succ j =>
          rw [Nat.testBit_succ]
          exact ih (n / 2) (by omega) (by omega)
      · have h2 : n % 2 = 1 := Nat.odd_iff.mp ho
        rw [ctz_odd h2] at hj
        omega

theorem ctz_lt_of_lt {n k : Nat} (hn : n ≠ 0) (hk : n < 2 ^ k) : ctz n < k := by
  induction n using Nat.strong_induction_on generalizing k with
  | _ n ih =>
    rcases Nat.even_or_odd n with he | ho
    · have h2 : n % 2 = 0 := Nat.even_iff.mp he
      rw [ctz_even hn h2]
      have hkpos : k ≠ 0 := by
        intro h; subst h; simp at hk; omega
      have : n / 2 < 2 ^ (k - 1) := by
        have : 2 ^ k = 2 * 2 ^ (k - 1) := by
          conv_lhs => rw [show k = (k - 1) + 1 by omega]
          ring
        omega
      have := ih (n / 2) (by omega) (by omega) this
      omega
    · have h2 : n % 2 = 1 := Nat.odd_iff.mp ho
      rw [ctz_odd h2]
      have : n ≥ 1 := by omega
      have : 2 ^ k > 1 := by omega
      by_contra h
      simp at h
      subst h
      simp at this

theorem testBit_pred {n : Nat} (hn : n ≠ 0) (j : Nat) :
    (n - 1).testBit j =
      (if j < ctz n then true else if j = ctz n then false else n.testBit j) := by
  induction n using Nat.strong_induction_on generalizing j with
  | _ n ih =>
    rcases Nat.even_or_odd n with he | ho
    · have h2 : n % 2 = 0 := Nat.even_iff.mp he
      have hhalf : n / 2 ≠ 0 := by omega
      rw [ctz_even hn h2]
      cases j with
      | zero =>
        simp only [if_pos (Nat.succ_pos _)]
        rw [Nat.testBit_zero]
        have : (n - 1) % 2 = 1 := by omega
        simp [this]
      | succ j =>
        have hdiv : (n - 1) / 2 = n / 2 - 1 := by omega
        rw [Nat.testBit_succ, hdiv, ih (n / 2) (by omega) hhalf j]
        by_cases hlt : j < ctz (n / 2)
        · rw [if_pos hlt, if_pos (by omega)]
        · by_cases heq : j = ctz (n / 2)
          · rw [if_neg hlt, if_pos heq, if_neg (by omega), if_pos (by omega)]
          · rw [if_neg hlt, if_neg heq, if_neg (by omega), if_neg (by omega),
              Nat.testBit_succ]
    · have h2 : n % 2 = 1 := Nat.odd_iff.mp ho
      rw [ctz_odd h2]
      cases j with
      | zero =>
        simp only [Nat.lt_irrefl, if_false, if_pos rfl]
        rw [Nat.testBit_zero]
        have : (n - 1) % 2 = 0 := by omega
        simp [this]
      | succ j =>
        rw [if_neg (by omega), if_neg (by omega), Nat.testBit_succ, Nat.testBit_succ]
        have : (n - 1) / 2 = n / 2 := by omega
        rw [this]

theorem testBit_clearLow {n : Nat} (hn : n ≠ 0) (j : Nat) :
    (clearLow n).testBit j = (n.testBit j && decide (j ≠ ctz n)) := by
  unfold clearLow
  rw [Nat.testBit_land, testBit_pred hn j]
  rcases Nat.lt_trichotomy j (ctz n) with h | h | h
  · simp [h, testBit_lt_ctz h]
  · simp [h]
  · have h1 : ¬ j < ctz n := by omega
    have h2 : j ≠ ctz n := by omega
    simp [h1, h2]

theorem clearLow_odd {n : Nat} (h2 : n % 2 = 1) : clearLow n = n - 1 := by
  have hn : n ≠ 0 := by omega
  apply Nat.eq_of_testBit_eq
  intro j
  rw [testBit_clearLow hn j, testBit_pred hn j, ctz_odd h2]
  cases j with
  | zero => simp
  | succ j => simp

theorem clearLow_even {n : Nat} (hn : n ≠ 0) (h2 : n % 2 = 0) :
    clearLow n = 2 * clearLow (n / 2) := by
  have hhalf : n / 2 ≠ 0 := by omega
  apply Nat.eq_of_testBit_eq
  intro j
  rw [testBit_clearLow hn j, ctz_even hn h2]
  cases j with
  | zero =>
    have hb : n.testBit 0 = false := by rw [Nat.testBit_zero]; simp [h2]
    have hb2 : (2 * clearLow (n / 2)).testBit 0 = false := by
      rw [Nat.testBit_zero]; simp [Nat.mul_mod_right]
    simp [hb, hb2]
  | succ j =>
    have hl : (2 * clearLow (n / 2)).testBit (j + 1) = (clearLow (n / 2)).testBit j := by
      rw [Nat.testBit_succ, Nat.mul_div_cancel_left _ (by omega : 0 < 2)]
    have hd : (decide (j + 1 ≠ ctz (n / 2) + 1)) = (decide (j ≠ ctz (n / 2))) := by
      simp
    rw [hl, testBit_clearLow hhalf j, Nat.testBit_succ, hd]

theorem clearLow_lt {n : Nat} (hn : n ≠ 0) : clearLow n < n := by
  induction n using Nat.strong_induction_on with
  | _ n ih =>
    rcases Nat.even_or_odd n with he | ho
    · have h2 : n % 2 = 0 := Nat.even_iff.mp he
      rw [clearLow_even hn h2]
      have := ih (n / 2) (by omega) (by omega)
      omega
    · have h2 : n % 2 = 1 := Nat.odd_iff.mp ho
      rw [clearLow_odd h2]
      omega

theorem clearLow_le (n : Nat) : clearLow n ≤ n := by
  rcases Nat.eq_zero_or_pos n with h | h
  · subst h; simp [clearLow]
  · exact Nat.le_of_lt (clearLow_lt (by omega))

theorem pop_clearLow {n : Nat} (hn : n ≠ 0) : pop (clearLow n) + 1 = pop n := by
  induction n using Nat.strong_induction_on with
  | _ n ih =>
    rcases Nat.even_or_odd n with he | ho
    · have h2 : n % 2 = 0 := Nat.even_iff.mp he
      rw [clearLow_even hn h2, pop_even (by simp [Nat.mul_mod_right]),
        Nat.mul_div_cancel_left _ (by omega : 0 < 2), pop_even h2]
      exact ih (n / 2) (by omega) (by omega)
    · have h2 : n % 2 = 1 := Nat.odd_iff.mp ho
      rw [clearLow_odd h2, pop_eq hn, h2]
      have hd : (n - 1) / 2 = n / 2 := by omega
      rcases Nat.eq_zero_or_pos (n - 1) with h1 | h1
      · have : n = 1 := by omega
        subst this
        simp [pop_zero]
      · rw [pop_eq (by omega), hd]
        omega

theorem pop_pos {n : Nat} (hn : n ≠ 0) : 0 < pop n := by
  have := pop_clearLow hn
  omega

/-- The i-th 4-bit piece code of a 16-byte nibble array, low nibble of each
byte first (specification helper used in theorem statements). -/
def nibble (pcs : List Nat) (i : Nat) : Nat :=
  (pcs.getD (i / 2) 0 >>> (4 * (i % 2))) &&& 15

/-- Embedding of the `next` loop of `BoardIter`, `MarlinFormatIter` and
`CudADFormatIter` (textually identical in the source): repeatedly take the
lowest set bit of `occ` as the square, read nibble `idx` of `pcs`, clear the
bit and advance `idx`.  The Rust array access `pcs[idx / 2]` panics when
`idx / 2` is out of bounds; that panic is modelled as the whole decoded
sequence being `none`. -/
def iterFeatures (occ : Nat) (pcs : List Nat) (idx : Nat) :
    Option (List (Nat × Nat)) :=
  if h : occ = 0 then some []
  else
    match pcs.get? (idx / 2) with
    | none => none
    | some byte =>
      let square := ctz occ
      let piece := (byte >>> (4 * (idx % 2))) &&& 15
      match iterFeatures (clearLow occ) pcs (idx + 1) with
      | none => none
      | some rest => some ((piece, square) :: rest)
termination_by occ
decreasing_by exact clearLow_lt h

theorem iterFeatures_zero (pcs : List Nat) (idx : Nat) :
    iterFeatures 0 pcs idx = some [] := by
  rw [iterFeatures]; simp

/-- Full characterisation of the decode loop: under the record-validity
precondition that at most 32 nibbles are consumed, it succeeds, yields one
pair per set occupancy bit, squares strictly increasing and exactly the set
bits, and the i-th piece is nibble `idx + i`. -/
theorem iterFeatures_spec (pcs : List Nat) (hpcs : pcs.length = 16) :
    ∀ occ idx, occ < 2 ^ 64 → idx + pop occ ≤ 32 →
    ∃ l, iterFeatures occ pcs idx = some l ∧
      l.length = pop occ ∧
      (∀ s, s ∈ l.map Prod.snd ↔ occ.testBit s = true) ∧
      List.Pairwise (· < ·) (l.map Prod.snd) ∧
      (∀ i (h : i < l.length), (l.get ⟨i, h⟩).fst = nibble pcs (idx + i)) := by
  intro occ
  induction occ using Nat.strong_induction_on with
  | _ occ ih =>
    intro idx hocc hcount
    rcases Nat.eq_zero_or_pos occ with h0 | h0
    · subst h0
      refine ⟨[], iterFeatures_zero pcs idx, by simp [pop_zero], ?_, by simp, by simp⟩
      intro s
      simp [Nat.zero_testBit]
    · have hne : occ ≠ 0 := by omega
      have hidx : idx ≤ 31 := by
        have := pop_pos hne
        omega
      have hget : pcs.get? (idx / 2) = some (pcs.getD (idx / 2) 0) := by
        have hlt : idx / 2 < pcs.length := by omega
        rw [List.get?_eq_get hlt]
        congr 1
        exact (List.getD_eq_get pcs 0 hlt).symm
      have hclr : clearLow occ < 2 ^ 64 :=
        Nat.lt_of_le_of_lt (clearLow_le occ) hocc
      have hcount2 : (idx + 1) + pop (clearLow occ) ≤ 32 := by
        have := pop_clearLow hne
        omega
      obtain ⟨rest, hrest, hlen, hmem, hsort, hpiece⟩ :=
        ih (clearLow occ) (clearLow_lt hne) (idx + 1) hclr hcount2
      refine ⟨((pcs.getD (idx / 2) 0 >>> (4 * (idx % 2))) &&& 15, ctz occ) :: rest, ?_, ?_, ?_, ?_, ?_⟩
      · rw [iterFeatures]
        simp only [hne, dite_false, hget, hrest]
      · simp only [List.length_cons, hlen]
        have := pop_clearLow hne
        omega
      · intro s
        simp only [List.map_cons, List.mem_cons]
        constructor
        · rintro (rfl | hs)
          · exact testBit_ctz hne
          · have hb := (hmem s).mp hs
            rw [testBit_clearLow hne s] at hb
            simp only [Bool.and_eq_true] at hb
            exact hb.1
        · intro hs
          by_cases hc : s = ctz occ
          · exact Or.inl hc
          · refine Or.inr ((hmem s).mpr ?_)
            rw [testBit_clearLow hne s, hs]
            simp [hc]
      · simp only [List.map_cons]
        refine List.pairwise_cons.mpr ⟨?_, hsort⟩
        intro s hs
        have hset := (hmem s).mp hs
        rw [testBit_clearLow hne s] at hset
        simp only [Bool.and_eq_true] at hset
        obtain ⟨hbit, hne2⟩ := hset
        have hne3 : s ≠ ctz occ := by simpa using hne2
        rcases Nat.lt_trichotomy s (ctz occ) with h | h | h
        · rw [testBit_lt_ctz h] at hbit
          exact absurd hbit (by simp)
        · exact absurd h hne3
        · exact h
      · intro i hi
        cases i with
        | zero => simp [nibble]
        | succ i =>
          have hi2 : i < rest.length := by
            simpa using hi
          have := hpiece i hi2
          simp only [List.get_cons_succ]
          rw [this]
          congr 1
          omega

theorem iterFeatures_pos {occ : Nat} (hocc : occ ≠ 0) (pcs : List Nat) (idx : Nat) :
    iterFeatures occ pcs idx =
      match pcs.get? (idx / 2) with
      | none => none
      | some byte =>
        match iterFeatures (clearLow occ) pcs (idx + 1) with
        | none => none
        | some rest => some (((byte >>> (4 * (idx % 2))) &&& 15, ctz occ) :: rest) := by
  rw [iterFeatures]
  simp [hocc]

/-- Embedding of `ChessBoard` (src/chess.rs): `occ` is a u64, `pcs` a
16-entry u8 array, `score` an i16, the rest u8 fields. -/
structure ChessBoard where
  occ : Nat
  pcs : List Nat
  score : Int
  result : Nat
  ksq : Nat
  opp_ksq : Nat
deriving Repr, DecidableEq

/-- `ChessBoard::default()`: all fields zero. -/
def ChessBoard.default : ChessBoard := ⟨0, List.replicate 16 0, 0, 0, 0, 0⟩

/-- Embedding of `MarlinFormat` (src/chess/marlin.rs). -/
structure MarlinFormat where
  occ : Nat
  pcs : List Nat
  stm_enp : Nat
  hfm : Nat
  fmc : Nat
  score : Int
  result : Nat
  extra : Nat
deriving Repr, DecidableEq

/-- The (piece, square) sequence produced by `ChessBoard::into_iter`. -/
def ChessBoard.features (b : ChessBoard) : Option (List (Nat × Nat)) :=
  iterFeatures b.occ b.pcs 0

/-- The (piece, square) sequence produced by `MarlinFormat::into_iter`. -/
def MarlinFormat.features (m : MarlinFormat) : Option (List (Nat × Nat)) :=
  iterFeatures m.occ m.pcs 0

/-- C4: for every chess record, canonical (`ChessBoard`, `BoardIter`) or
legacy (`MarlinFormat`, `MarlinFormatIter`), whose occupancy fits in a u64
and holds at most 32 pieces (the record-validity bound enforced by the
16-byte nibble array), the decode iterator yields exactly
popcount(occupancy) pairs, the yielded squares are strictly increasing and
are exactly the set bits of the occupancy (lowest first), and the i-th
yielded piece is the i-th 4-bit nibble of the piece array, low nibble of
each byte first. -/
theorem chess_decode_count_sorted_nibbles
    (b : ChessBoard) (hb1 : b.occ < 2 ^ 64) (hb2 : b.pcs.length = 16)
    (hb3 : pop b.occ ≤ 32)
    (m : MarlinFormat) (hm1 : m.occ < 2 ^ 64) (hm2 : m.pcs.length = 16)
    (hm3 : pop m.occ ≤ 32) :
    (∃ l, b.features = some l ∧ l.length = pop b.occ ∧
      (∀ s, s ∈ l.map Prod.snd ↔ b.occ.testBit s = true) ∧
      List.Pairwise (· < ·) (l.map Prod.snd) ∧
      (∀ i (h : i < l.length), (l.get ⟨i, h⟩).fst = nibble b.pcs i)) ∧
    (∃ l, m.features = some l ∧ l.length = pop m.occ ∧
      (∀ s, s ∈ l.map Prod.snd ↔ m.occ.testBit s = true) ∧
      List.Pairwise (· < ·) (l.map Prod.snd) ∧
      (∀ i (h : i < l.length), (l.get ⟨i, h⟩).fst = nibble m.pcs i)) := by
  constructor
  · obtain ⟨l, h1, h2, h3, h4, h5⟩ :=
      iterFeatures_spec b.pcs hb2 b.occ 0 hb1 (by omega)
    exact ⟨l, h1, h2, h3, h4, fun i h => by simpa using h5 i h⟩
  · obtain ⟨l, h1, h2, h3, h4, h5⟩ :=
      iterFeatures_spec m.pcs hm2 m.occ 0 hm1 (by omega)
    exact ⟨l, h1, h2, h3, h4, fun i h => by simpa using h5 i h⟩

theorem pop_one : pop 1 = 1 := by
  rw [pop_eq (by omega)]
  simp [pop_zero]

theorem pop_five : pop 5 = 2 := by
  rw [pop_eq (by omega), pop_eq (by omega), pop_eq (by omega)]
  simp [pop_zero]

/-- Witness for C4 at a concrete canonical record and a concrete legacy
record (each with occupancy 5, i.e. two pieces). -/
theorem chess_decode_count_sorted_nibbles_witness :
    ((⟨5, List.replicate 16 0, 0, 0, 0, 0⟩ : ChessBoard).occ < 2 ^ 64 ∧
      pop (⟨5, List.replicate 16 0, 0, 0, 0, 0⟩ : ChessBoard).occ ≤ 32) ∧
    (∃ l, (⟨5, List.replicate 16 0, 0, 0, 0, 0⟩ : ChessBoard).features = some l ∧
      l.length = pop (5 : Nat) ∧
      (∀ s, s ∈ l.map Prod.snd ↔ (5 : Nat).testBit s = true) ∧
      List.Pairwise (· < ·) (l.map Prod.snd) ∧
      (∀ i (h : i < l.length),
        (l.get ⟨i, h⟩).fst = nibble (List.replicate 16 0) i)) := by
  have hpop : pop (5 : Nat) = 2 := pop_five
  refine ⟨⟨by decide, by rw [hpop]; omega⟩, ?_⟩
  exact (chess_decode_count_sorted_nibbles
    ⟨5, List.replicate 16 0, 0, 0, 0, 0⟩ (by decide) (by decide)
      (by rw [hpop]; omega)
    ⟨5, List.replicate 16 0, 0, 0, 0, 0, 0, 0⟩ (by decide) (by decide)
      (by rw [hpop]; omega)).1

/-- 8-bit wrapping subtraction `2 - r` on a u8 (release semantics); equal
to plain subtraction whenever `r ≤ 2`, which is the only case produced by
the parsers. -/
def twoMinus8 (r : Nat) : Nat := (2 + 256 - r % 256) % 256

/-- The shared body of the conversion loops in `From<MarlinFormat>` and
`From<CudADFormat>` (textually identical in the source): mirror each
(piece, square) pair when the second player is to move, record king
squares, and collect the pairs in order.  `stm` is 1 when the stored
side-to-move flag marks the second player.  All squares coming from the
iterator are below 64 and all pieces below 16, so none of the u8
operations here can wrap. -/
def convertLoop (stm : Nat) : List (Nat × Nat) → ChessBoard → List (Nat × Nat) →
    ChessBoard × List (Nat × Nat)
  | [], board, acc => (board, acc)
  | (piece0, square0) :: rest, board, acc =>
    let piece := if stm = 1 then piece0 ^^^ 8 else piece0
    let square := if stm = 1 then square0 ^^^ 56 else square0
    let board := if piece = 5 then { board with ksq := square } else board
    let board := if piece = 13 then { board with opp_ksq := square ^^^ 56 } else board
    convertLoop stm rest board (acc ++ [(piece, square)])

/-- The re-encoding loop at the end of both conversions:
`board.occ |= 1 << square; board.pcs[idx / 2] |= piece << (4 * (idx & 1))`
over the sorted feature prefix.  (The shift count on the u64 is masked to
`square % 64`, release semantics; the `pcs` index stays below 16 whenever
at most 32 features are packed, so the `List.set` never falls outside the
array.) -/
def packLoop : List (Nat × Nat) → Nat → ChessBoard → ChessBoard
  | [], _, board => board
  | (piece, square) :: rest, idx, board =>
    packLoop rest (idx + 1)
      { board with
          occ := board.occ ||| (1 <<< (square % 64)),
          pcs := board.pcs.set (idx / 2)
            (board.pcs.getD (idx / 2) 0 ||| (piece <<< (4 * (idx % 2)))) }

/-- Embedding of `impl From<MarlinFormat> for ChessBoard`
(src/chess/marlin.rs).  The iterator panic (more than 32 nibbles) and the
`features[fidx]` out-of-bounds panic are modelled as `none`. -/
def ChessBoard.fromMarlin (mf : MarlinFormat) : Option ChessBoard :=
  let stm := mf.stm_enp >>> 7
  let board0 :=
    if stm = 1 then
      { ChessBoard.default with score := wrapNeg16 mf.score, result := twoMinus8 mf.result }
    else
      { ChessBoard.default with score := mf.score, result := mf.result }
  match mf.features with
  | none => none
  | some feats =>
    let st := convertLoop stm feats board0 []
    if st.2.length > 32 then none
    else some (packLoop (st.2.mergeSort (fun a b => decide (a.2 ≤ b.2))) 0 st.1)

/-- Embedding of `CudADFormat` (src/chess/cudad.rs); `wdl` is an i8. -/
structure CudADFormat where
  pcs : List Nat
  occ : Nat
  mvcnt : Nat
  fmr : Nat
  stmr : Nat
  enp : Nat
  score : Int
  wdl : Int
deriving Repr, DecidableEq

def CudADFormat.features (c : CudADFormat) : Option (List (Nat × Nat)) :=
  iterFeatures c.occ c.pcs 0

def CudADFormat.is_black_to_move (c : CudADFormat) : Bool := c.stmr >>> 7 > 0

/-- `CudADFormat::res_stm`: remaps the signed outcome; the `assert!(r >= 0)`
is modelled as `none` when it fails (the i8 arithmetic cannot wrap for the
declared i8 range of `wdl`, |wdl| ≤ 127 keeps 1 ± wdl within i16-safe
bounds, and the source computes in i8 where 1 + 127 would wrap — that wrap
is modelled explicitly). -/
def CudADFormat.res_stm (c : CudADFormat) : Option Nat :=
  let r : Int := if c.is_black_to_move then 1 - c.wdl else 1 + c.wdl
  let r := (r + 128) % 256 - 128
  if r < 0 then none else some r.toNat

/-- Embedding of `impl From<CudADFormat> for ChessBoard`
(src/chess/cudad.rs). -/
def ChessBoard.fromCudAD (c : CudADFormat) : Option ChessBoard :=
  let stm := c.is_black_to_move
  let board0 :=
    if stm then { ChessBoard.default with score := wrapNeg16 c.score }
    else { ChessBoard.default with score := c.score }
  match c.res_stm with
  | none => none
  | some res =>
    let board0 := { board0 with result := res }
    match c.features with
    | none => none
    | some feats =>
      let st := convertLoop (if stm then 1 else 0) feats board0 []
      if st.2.length > 32 then none
      else some (packLoop (st.2.mergeSort (fun a b => decide (a.2 ≤ b.2))) 0 st.1)

theorem iterFeatures_six :
    iterFeatures 1 (6 :: List.replicate 15 0) 0 = some [(6, 0)] := by
  have h0 : clearLow 1 = 0 := by decide
  have h1 : ctz 1 = 0 := ctz_odd (by decide)
  rw [iterFeatures_pos (by decide), h0, iterFeatures_zero, h1]
  decide

set_option maxHeartbeats 2000000 in
/-- C5 evaluation: converting a legacy record whose single 4-bit piece code
is the overloaded value 6 (the reused code standing in for an
unmoved/promoted rook) stores the code 6 unchanged in the canonical output
— both `From<MarlinFormat>` and `From<CudADFormat>` pass the nibble
through with no normalization — and 6 is not a standard code (its
piece-type bits exceed 5). -/
theorem legacy_overloaded_code_not_normalized :
    ChessBoard.fromMarlin ⟨1, 6 :: List.replicate 15 0, 0, 0, 0, 0, 0, 0⟩ =
      some ⟨1, 6 :: List.replicate 15 0, 0, 0, 0, 0⟩ ∧
    ChessBoard.fromCudAD ⟨6 :: List.replicate 15 0, 1, 0, 0, 0, 0, 0, 0⟩ =
      some ⟨1, 6 :: List.replicate 15 0, 0, 1, 0, 0⟩ ∧
    5 < nibble (6 :: List.replicate 15 0) 0 := by
  have hfeatM : MarlinFormat.features ⟨1, 6 :: List.replicate 15 0, 0, 0, 0, 0, 0, 0⟩ =
      some [(6, 0)] := iterFeatures_six
  have hfeatC : CudADFormat.features ⟨6 :: List.replicate 15 0, 1, 0, 0, 0, 0, 0, 0⟩ =
      some [(6, 0)] := iterFeatures_six
  refine ⟨?_, ?_, by decide⟩
  · simp only [ChessBoard.fromMarlin, hfeatM]
    norm_num [convertLoop]
    decide
  · have hres : CudADFormat.res_stm ⟨6 :: List.replicate 15 0, 1, 0, 0, 0, 0, 0, 0⟩ =
        some 1 := by decide
    have hstm : CudADFormat.is_black_to_move ⟨6 :: List.replicate 15 0, 1, 0, 0, 0, 0, 0, 0⟩ =
        false := by decide
    simp only [ChessBoard.fromCudAD, hfeatC, hres, hstm]
    norm_num [convertLoop]
    decide

/- ----------------------------------------------------------------- -/
/- Chess text parser (ChessBoard::from_str, src/chess.rs)            -/
/- ----------------------------------------------------------------- -/

/-- Embedding of Rust `str::split(c)`: splits at every occurrence of `c`,
keeping empty parts, always yielding at least one part. -/
def splitOnChar (c : Char) : List Char → List (List Char)
  | [] => [[]]
  | x :: rest =>
    if x = c then [] :: splitOnChar c rest
    else
      match splitOnChar c rest with
      | g :: gs => (x :: g) :: gs
      | [] => [[x]]

/-- Splitting on a predicate, keeping empty parts (helper for
`split_whitespace`). -/
def splitOnPred (p : Char → Bool) : List Char → List (List Char)
  | [] => [[]]
  | x :: rest =>
    if p x then [] :: splitOnPred p rest
    else
      match splitOnPred p rest with
      | g :: gs => (x :: g) :: gs
      | [] => [[x]]

/-- Embedding of Rust `str::split_whitespace`: whitespace-separated
tokens, no empty tokens. -/
def splitWhitespaceChars (l : List Char) : List (List Char) :=
  (splitOnPred Char.isWhitespace l).filter (· ≠ [])

/-- Embedding of Rust `str::trim`. -/
def trimChars (l : List Char) : List Char :=
  ((l.dropWhile Char.isWhitespace).reverse.dropWhile Char.isWhitespace).reverse

/-- Decimal digit-string evaluation; `none` on a non-digit. -/
def digitsValAux : List Char → Nat → Option Nat
  | [], acc => some acc
  | c :: rest, acc =>
    if '0' ≤ c ∧ c ≤ '9' then digitsValAux rest (10 * acc + (c.toNat - '0'.toNat))
    else none

/-- Value of a non-empty all-digit string. -/
def parseNatStr (cs : List Char) : Option Nat :=
  if cs.isEmpty then none else digitsValAux cs 0

/-- Embedding of Rust `str::parse::<i16>`: optional sign, digits,
range check (out-of-range is an error). -/
def parseI16 (cs : List Char) : Option Int :=
  match cs with
  | '+' :: rest => (parseNatStr rest).bind fun n => if n ≤ 32767 then some (n : Int) else none
  | '-' :: rest => (parseNatStr rest).bind fun n => if n ≤ 32768 then some (-(n : Int)) else none
  | _ => (parseNatStr cs).bind fun n => if n ≤ 32767 then some (n : Int) else none

/-- Embedding of the `wdl` match arms shared by the chess and ataxx
parsers: the accepted outcome spellings and their codes. -/
def parseWdl (cs : List Char) : Option Nat :=
  if cs = "1.0".data ∨ cs = "[1.0]".data ∨ cs = "1".data then some 2
  else if cs = "0.5".data ∨ cs = "[0.5]".data ∨ cs = "1/2".data then some 1
  else if cs = "0.0".data ∨ cs = "[0.0]".data ∨ cs = "0".data then some 0
  else none

/-- `"PNBRQKpnbrqk".chars().position(|el| el == ch)`. -/
def pieceIndex (ch : Char) : Option Nat := "PNBRQKpnbrqk".data.indexOf? ch

/-- Wrapping usize subtraction `a - b` (release semantics), used for the
`7 - i` rank computation when black is to move. -/
def usizeSub (a b : Nat) : Nat := (a + 2 ^ 64 - b % 2 ^ 64) % 2 ^ 64

/-- The mutable state captured by the `parse_row` closure: the running
nibble index and the board under construction. -/
structure PState where
  idx : Nat
  board : ChessBoard
deriving Repr, DecidableEq

/-- The per-piece body of the `parse_row` closure: the two king-square
assignments, the occupancy OR, the 33rd-piece guard (`Err(s)` with the
whole line) and the nibble write.  `piece` and `square` are the
already-mirrored values. -/
def pieceStep (line : List Char) (piece square : Nat) (st : PState) :
    Except (List Char) PState :=
  let board := st.board
  let board := if piece = 5 then { board with ksq := square % 256 } else board
  let board := if piece = 13 then
      { board with opp_ksq := (square % 256) ^^^ 56 } else board
  let board := { board with occ := board.occ ||| (1 <<< (square % 64)) }
  if 32 ≤ st.idx then .error line
  else
    .ok ⟨st.idx + 1,
      { board with
        pcs := board.pcs.set (st.idx / 2)
          (board.pcs.getD (st.idx / 2) 0 ||| (piece <<< (4 * (st.idx % 2)))) }⟩

/-- Embedding of the `parse_row` closure in `ChessBoard::from_str`.
`line` is the whole input line (returned as the error payload by the
33-piece guard).  Characters that are neither an empty-run digit nor a
recognized piece letter are silently skipped (the if/else-if chain has no
else arm).  The u64 shift mask, the `as u8` casts and the usize wrapping
are modelled explicitly. -/
def parse_row (stm : Bool) (line : List Char) (rank : Nat) :
    List Char → Nat → PState → Except (List Char) PState
  | [], _, st => .ok st
  | ch :: rest, col, st =>
    if '1' ≤ ch ∧ ch ≤ '8' then
      parse_row stm line rank rest (col + (ch.toNat - '0'.toNat)) st
    else
      match pieceIndex ch with
      | some p =>
        let piece0 := ((p / 6) <<< 3) ||| (p % 6)
        let square0 := (8 * rank + col) % 2 ^ 64
        let piece := if stm then piece0 ^^^ 8 else piece0
        let square := if stm then square0 ^^^ 56 else square0
        match pieceStep line piece square st with
        | .error e => .error e
        | .ok st2 => parse_row stm line rank rest (col + 1) st2
      | none => parse_row stm line rank rest col st

/-- The row loop of `ChessBoard::from_str`: when black is to move the rows
are processed in given order with rank `7 - i` (wrapping), otherwise in
reversed order with rank `i`. -/
def parseRowsGo (stm : Bool) (line : List Char) :
    List (List Char) → Nat → PState → Except (List Char) PState
  | [], _, st => .ok st
  | r :: rest, i, st =>
    match parse_row stm line (if stm then usizeSub 7 i else i) r 0 st with
    | .error e => .error e
    | .ok st => parseRowsGo stm line rest (i + 1) st

/-- The tail of `ChessBoard::from_str` after field splitting: row parsing,
score parsing, outcome parsing, and the final side-to-move flip. -/
def ChessBoard.fromFields (rows : List (List Char)) (stm : Bool)
    (score wdl : List Char) (line : List Char) : Except (List Char) ChessBoard :=
  let st0 : PState := ⟨0, ChessBoard.default⟩
  match (if stm then parseRowsGo true line rows 0 st0
         else parseRowsGo false line rows.reverse 0 st0) with
  | .error e => .error e
  | .ok st =>
    match parseI16 score with
    | none => .error "Bad score!".data
    | some sc =>
      match parseWdl wdl with
      | none => .error "Bad game result!".data
      | some r =>
        if stm then
          .ok { st.board with score := wrapNeg16 sc, result := 2 - r }
        else
          .ok { st.board with score := sc, result := r }

/-- Embedding of `ChessBoard::from_str` on the character list of the
input line. -/
def ChessBoard.fromStr (s : List Char) : Except (List Char) ChessBoard :=
  let split := splitOnChar '|' s
  let fen := split.headD []
  match split.get? 1 with
  | none => .error "Malformed!".data
  | some scoreF =>
    match split.get? 2 with
    | none => .error "Malformed!".data
    | some wdlF =>
      let parts := splitWhitespaceChars fen
      match parts.get? 0 with
      | none => .error "Malformed FEN!".data
      | some board_str =>
        match parts.get? 1 with
        | none => .error "Malformed FEN!".data
        | some stm_str =>
          ChessBoard.fromFields (splitOnChar '/' board_str) (stm_str = "b".data)
            (trimChars scoreF) (trimChars wdlF) s

deriving instance DecidableEq for Except

/- Specification helpers (used only in theorem statements and proofs). -/

/-- Mirror transform applied to a raw (piece, square) pair when the second
player is to move. -/
def mirrorEv (stm : Bool) (e : Nat × Nat) : Nat × Nat :=
  (if stm then e.1 ^^^ 8 else e.1, if stm then e.2 ^^^ 56 else e.2)

/-- The occupancy contribution of a list of (piece, square) pairs:
OR of `1 << (square % 64)`. -/
def orBits (l : List (Nat × Nat)) : Nat :=
  l.foldr (fun e a => (1 <<< (e.2 % 64)) ||| a) 0

/-- One king-square tracking step (the two independent `if piece == 5` /
`if piece == 13` assignments). -/
def stepKings (s : Nat × Nat) (m : Nat × Nat) : Nat × Nat :=
  (if m.1 = 5 then m.2 % 256 else s.1,
   if m.1 = 13 then (m.2 % 256) ^^^ 56 else s.2)

/-- The raw (piece, square) reads of one board-field row: piece codes as
positioned in "PNBRQKpnbrqk" re-packed as colour-bit · type, squares
`8 * rank + col` before any mirroring. -/
def rowEvents (rank : Nat) : List Char → Nat → List (Nat × Nat)
  | [], _ => []
  | ch :: rest, col =>
    if '1' ≤ ch ∧ ch ≤ '8' then rowEvents rank rest (col + (ch.toNat - '0'.toNat))
    else
      match pieceIndex ch with
      | some p =>
        (((p / 6) <<< 3) ||| (p % 6), (8 * rank + col) % 2 ^ 64) ::
          rowEvents rank rest (col + 1)
      | none => rowEvents rank rest col

/-- The raw reads of a whole board field, row by row, with the rank
assignment used by the corresponding `from_str` branch. -/
def rowsEvents (stm : Bool) : List (List Char) → Nat → List (Nat × Nat)
  | [], _ => []
  | r :: rest, i =>
    rowEvents (if stm then usizeSub 7 i else i) r 0 ++ rowsEvents stm rest (i + 1)

theorem orBits_nil : orBits [] = 0 := rfl

theorem orBits_cons (m : Nat × Nat) (ms : List (Nat × Nat)) :
    orBits (m :: ms) = (1 <<< (m.2 % 64)) ||| orBits ms := rfl

theorem orBits_acc (a : List (Nat × Nat)) (x : Nat) :
    a.foldr (fun e a => (1 <<< (e.2 % 64)) ||| a) x = orBits a ||| x := by
  induction a with
  | nil => simp [orBits]
  | cons m ms ih =>
    simp only [List.foldr_cons, ih, orBits_cons, Nat.lor_assoc]

theorem orBits_append (a b : List (Nat × Nat)) :
    orBits (a ++ b) = orBits a ||| orBits b := by
  unfold orBits
  rw [List.foldr_append]
  exact orBits_acc a _

theorem testBit_orBits (l : List (Nat × Nat)) (s : Nat) :
    (orBits l).testBit s = decide (∃ e ∈ l, e.2 % 64 = s) := by
  induction l with
  | nil => simp [orBits, Nat.zero_testBit]
  | cons m ms ih =>
    rw [orBits_cons, Nat.testBit_lor, ih]
    have h1 : (1 <<< (m.2 % 64)) = 2 ^ (m.2 % 64) := by
      rw [Nat.shiftLeft_eq, Nat.one_mul]
    rw [h1, Nat.testBit_two_pow]
    by_cases h : m.2 % 64 = s
    · simp [h]
    · have hd : decide (m.2 % 64 = s) = false := by simp [h]
      rw [hd]
      simp [h]

theorem orBits_perm {l1 l2 : List (Nat × Nat)} (h : l1.Perm l2) :
    orBits l1 = orBits l2 := by
  apply Nat.eq_of_testBit_eq
  intro j
  rw [testBit_orBits, testBit_orBits]
  simp only [decide_eq_decide]
  constructor
  · rintro ⟨e, he, hq⟩; exact ⟨e, h.mem_iff.mp he, hq⟩
  · rintro ⟨e, he, hq⟩; exact ⟨e, h.mem_iff.mpr he, hq⟩

theorem xor_swap_eq {a b c : Nat} : a ^^^ c = b ↔ a = b ^^^ c := by
  constructor
  · intro h
    rw [← h, Nat.xor_assoc, Nat.xor_self, Nat.xor_zero]
  · intro h
    rw [h, Nat.xor_assoc, Nat.xor_self, Nat.xor_zero]

theorem xor_mod_pow {c k : Nat} (hc : c < 2 ^ k) (x : Nat) :
    (x ^^^ c) % 2 ^ k = (x % 2 ^ k) ^^^ c := by
  apply Nat.eq_of_testBit_eq
  intro j
  rw [Nat.testBit_mod_two_pow, Nat.testBit_xor, Nat.testBit_xor,
    Nat.testBit_mod_two_pow]
  by_cases hj : j < k
  · simp [hj]
  · have hcb : c.testBit j = false := by
      apply Nat.testBit_lt_two_pow
      calc c < 2 ^ k := hc
        _ ≤ 2 ^ j := Nat.pow_le_pow_right (by omega) (by omega)
    simp [hj, hcb]

theorem xor_lt_pow {a c k : Nat} (ha : a < 2 ^ k) (hc : c < 2 ^ k) :
    a ^^^ c < 2 ^ k := Nat.xor_lt_two_pow ha hc

theorem pieceStep_spec (line : List Char) (piece square : Nat) (st : PState)
    (h : st.idx < 32) :
    ∃ b : ChessBoard, pieceStep line piece square st = .ok ⟨st.idx + 1, b⟩ ∧
      b.occ = st.board.occ ||| (1 <<< (square % 64)) ∧
      b.score = st.board.score ∧
      b.result = st.board.result ∧
      (b.ksq, b.opp_ksq) =
        stepKings (st.board.ksq, st.board.opp_ksq) (piece, square) := by
  have hg : ¬ 32 ≤ st.idx := by omega
  simp only [pieceStep]
  rw [if_neg hg]
  refine ⟨_, rfl, ?_⟩
  by_cases h5 : piece = 5 <;> by_cases h13 : piece = 13 <;>
    simp_all [stepKings]

theorem pieceStep_err (line : List Char) (piece square : Nat) (st : PState)
    (h : 32 ≤ st.idx) :
    pieceStep line piece square st = .error line := by
  simp [pieceStep, h]

theorem parse_row_spec (stm : Bool) (line : List Char) (rank : Nat)
    (chars : List Char) :
    ∀ col st, st.idx ≤ 32 →
      (32 < st.idx + (rowEvents rank chars col).length →
        parse_row stm line rank chars col st = .error line) ∧
      (st.idx + (rowEvents rank chars col).length ≤ 32 →
        ∃ st', parse_row stm line rank chars col st = .ok st' ∧
          st'.idx = st.idx + (rowEvents rank chars col).length ∧
          st'.board.occ = st.board.occ |||
            orBits ((rowEvents rank chars col).map (mirrorEv stm)) ∧
          st'.board.score = st.board.score ∧
          st'.board.result = st.board.result ∧
          (st'.board.ksq, st'.board.opp_ksq) =
            ((rowEvents rank chars col).map (mirrorEv stm)).foldl stepKings
              (st.board.ksq, st.board.opp_ksq)) := by
  induction chars with
  | nil =>
    intro col st hidx
    refine ⟨?_, ?_⟩
    · intro h
      simp only [rowEvents, List.length_nil] at h
      omega
    · intro _
      exact ⟨st, by simp [parse_row], by simp [rowEvents],
        by simp [rowEvents, orBits_nil], rfl, rfl, by simp [rowEvents]⟩
  | cons ch rest ih =>
    intro col st hidx
    by_cases hd : '1' ≤ ch ∧ ch ≤ '8'
    · simp only [parse_row, rowEvents, if_pos hd]
      exact ih (col + (ch.toNat - '0'.toNat)) st hidx
    · cases hp : pieceIndex ch with
      | none =>
        simp only [parse_row, rowEvents, if_neg hd, hp]
        exact ih col st hidx
      | some p =>
        simp only [parse_row, rowEvents, if_neg hd, hp, List.length_cons,
          List.map_cons]
        refine ⟨?_, ?_⟩
        · intro hlen
          by_cases hg : 32 ≤ st.idx
          · rw [pieceStep_err line _ _ st hg]
          · obtain ⟨b, hstep, hocc, hsc, hres, hk⟩ :=
              pieceStep_spec line
                (if stm then (((p / 6) <<< 3) ||| (p % 6)) ^^^ 8
                 else ((p / 6) <<< 3) ||| (p % 6))
                (if stm then ((8 * rank + col) % 2 ^ 64) ^^^ 56
                 else (8 * rank + col) % 2 ^ 64) st (by omega)
            rw [hstep]
            exact (ih (col + 1) ⟨st.idx + 1, b⟩ (by simp; omega)).1
              (by simp; omega)
        · intro hlen
          have hg : st.idx < 32 := by omega
          obtain ⟨b, hstep, hocc, hsc, hres, hk⟩ :=
            pieceStep_spec line
              (if stm then (((p / 6) <<< 3) ||| (p % 6)) ^^^ 8
               else ((p / 6) <<< 3) ||| (p % 6))
              (if stm then ((8 * rank + col) % 2 ^ 64) ^^^ 56
               else (8 * rank + col) % 2 ^ 64) st hg
          rw [hstep]
          obtain ⟨st', hrun, hidx', hocc', hsc', hres', hk'⟩ :=
            (ih (col + 1) ⟨st.idx + 1, b⟩ (by simp; omega)).2 (by simp; omega)
          have hidx2 : st'.idx = st.idx + 1 + (rowEvents rank rest (col + 1)).length :=
            hidx'
          have hocc2 : st'.board.occ = b.occ |||
              orBits ((rowEvents rank rest (col + 1)).map (mirrorEv stm)) := hocc'
          have hk2 : (st'.board.ksq, st'.board.opp_ksq) =
              ((rowEvents rank rest (col + 1)).map (mirrorEv stm)).foldl stepKings
                (b.ksq, b.opp_ksq) := hk'
          refine ⟨st', hrun, ?_, ?_, ?_, ?_, ?_⟩
          · omega
          · rw [hocc2, hocc, orBits_cons, ← Nat.lor_assoc]
            simp [mirrorEv]
          · rw [hsc']; exact hsc
          · rw [hres']; exact hres
          · rw [hk2]
            simp only [List.foldl_cons]
            rw [hk]
            simp [mirrorEv]

theorem parseRowsGo_spec (stm : Bool) (line : List Char) (rows : List (List Char)) :
    ∀ i st, st.idx ≤ 32 →
      (32 < st.idx + (rowsEvents stm rows i).length →
        parseRowsGo stm line rows i st = .error line) ∧
      (st.idx + (rowsEvents stm rows i).length ≤ 32 →
        ∃ st', parseRowsGo stm line rows i st = .ok st' ∧
          st'.idx = st.idx + (rowsEvents stm rows i).length ∧
          st'.board.occ = st.board.occ |||
            orBits ((rowsEvents stm rows i).map (mirrorEv stm)) ∧
          st'.board.score = st.board.score ∧
          st'.board.result = st.board.result ∧
          (st'.board.ksq, st'.board.opp_ksq) =
            ((rowsEvents stm rows i).map (mirrorEv stm)).foldl stepKings
              (st.board.ksq, st.board.opp_ksq)) := by
  induction rows with
  | nil =>
    intro i st hidx
    refine ⟨?_, ?_⟩
    · intro h
      simp only [rowsEvents, List.length_nil] at h
      omega
    · intro _
      exact ⟨st, by simp [parseRowsGo], by simp [rowsEvents],
        by simp [rowsEvents, orBits_nil], rfl, rfl, by simp [rowsEvents]⟩
  | cons r rest ih =>
    intro i st hidx
    simp only [parseRowsGo, rowsEvents, List.length_append, List.map_append]
    have hrow := parse_row_spec stm line (if stm then usizeSub 7 i else i) r 0 st hidx
    refine ⟨?_, ?_⟩
    · intro hlen
      by_cases h0 : st.idx + (rowEvents (if stm then usizeSub 7 i else i) r 0).length ≤ 32
      · obtain ⟨st1, hrun, hidx1, hocc1, hsc1, hres1, hk1⟩ := hrow.2 h0
        rw [hrun]
        exact (ih (i + 1) st1 (by omega)).1 (by omega)
      · rw [hrow.1 (by omega)]
    · intro hlen
      obtain ⟨st1, hrun, hidx1, hocc1, hsc1, hres1, hk1⟩ := hrow.2 (by omega)
      rw [hrun]
      obtain ⟨st', hrun', hidx', hocc', hsc', hres', hk'⟩ :=
        (ih (i + 1) st1 (by omega)).2 (by omega)
      refine ⟨st', hrun', by omega, ?_, ?_, ?_, ?_⟩
      · rw [hocc', hocc1, orBits_append, Nat.lor_assoc]
      · rw [hsc', hsc1]
      · rw [hres', hres1]
      · rw [hk', hk1, List.foldl_append]

/-- A character that `parse_row` consumes as a piece placement: not an
empty-run digit, and present in "PNBRQKpnbrqk". -/
def isPieceChar (ch : Char) : Bool :=
  !(decide ('1' ≤ ch ∧ ch ≤ '8')) && (pieceIndex ch).isSome

theorem rowEvents_length (rank : Nat) (chars : List Char) :
    ∀ col, (rowEvents rank chars col).length = chars.countP isPieceChar := by
  induction chars with
  | nil => intro col; simp [rowEvents]
  | cons ch rest ih =>
    intro col
    by_cases hd : '1' ≤ ch ∧ ch ≤ '8'
    · have hpc : isPieceChar ch = false := by simp [isPieceChar, hd]
      simp only [rowEvents, if_pos hd, List.countP_cons, hpc]
      simp [ih]
    · cases hp : pieceIndex ch with
      | none =>
        have hpc : isPieceChar ch = false := by simp [isPieceChar, hp]
        simp only [rowEvents, if_neg hd, hp, List.countP_cons, hpc]
        simp [ih]
      | some p =>
        have hpc : isPieceChar ch = true := by simp [isPieceChar, hd, hp]
        simp only [rowEvents, if_neg hd, hp, List.countP_cons, hpc,
          List.length_cons]
        simp [ih]

theorem rowsEvents_length (stm : Bool) (rows : List (List Char)) :
    ∀ i, (rowsEvents stm rows i).length =
      (rows.map (·.countP isPieceChar)).sum := by
  induction rows with
  | nil => intro i; simp [rowsEvents]
  | cons r rest ih =>
    intro i
    simp only [rowsEvents, List.length_append, List.map_cons, List.sum_cons,
      rowEvents_length, ih]

theorem splitOnChar_ne_nil (c : Char) (l : List Char) : splitOnChar c l ≠ [] := by
  cases l with
  | nil => simp [splitOnChar]
  | cons x rest =>
    simp only [splitOnChar]
    by_cases h : x = c
    · simp [h]
    · rw [if_neg h]
      cases splitOnChar c rest <;> simp

theorem splitOnChar_countP_sum {p : Char → Bool} {c : Char} (hc : p c = false)
    (l : List Char) :
    ((splitOnChar c l).map (·.countP p)).sum = l.countP p := by
  induction l with
  | nil => simp [splitOnChar]
  | cons x rest ih =>
    simp only [splitOnChar]
    by_cases h : x = c
    · rw [if_pos h]
      simp only [List.map_cons, List.sum_cons, List.countP_nil, List.countP_cons]
      rw [h, hc]
      simpa using ih
    · rw [if_neg h]
      rcases hsp : splitOnChar c rest with _ | ⟨g, gs⟩
      · exact absurd hsp (splitOnChar_ne_nil c rest)
      · rw [hsp] at ih
        simp only [List.map_cons, List.sum_cons, List.countP_cons] at ih ⊢
        omega

/-- C9: `ChessBoard::from_str` returns an error (the 33rd piece hits the
`idx >= 32` guard, which sits before the nibble-array write) for every
input line whose board field contains more than 32 piece characters; no
out-of-bounds write is ever attempted. -/
theorem chess_from_str_33_pieces_errors (s board_str : List Char)
    (hb : (splitWhitespaceChars ((splitOnChar '|' s).headD [])).get? 0 =
      some board_str)
    (hcount : 32 < board_str.countP isPieceChar) :
    ∀ b, ChessBoard.fromStr s ≠ .ok b := by
  intro b
  unfold ChessBoard.fromStr
  simp only [List.get?_eq_getElem?]
  cases h1 : (splitOnChar '|' s)[1]? with
  | none => simp only [h1]; simp
  | some scoreF =>
    cases h2 : (splitOnChar '|' s)[2]? with
    | none => simp only [h1, h2]; simp
    | some wdlF =>
      have hb2 : (splitWhitespaceChars ((splitOnChar '|' s).headD []))[0]? =
          some board_str := by
        rw [← List.get?_eq_getElem?]
        exact hb
      cases h3 : (splitWhitespaceChars ((splitOnChar '|' s).headD []))[1]? with
      | none => simp only [h1, h2, hb2, h3]; simp
      | some stm_str =>
        simp only [h1, h2, hb2, h3]
        simp only [ChessBoard.fromFields]
        have hsum : ((splitOnChar '/' board_str).map (·.countP isPieceChar)).sum =
            board_str.countP isPieceChar :=
          splitOnChar_countP_sum (by decide) board_str
        by_cases hstm : stm_str = ['b']
        · have hd : (decide (stm_str = ['b'])) = true := decide_eq_true hstm
          rw [hd]
          have herr := (parseRowsGo_spec true s (splitOnChar '/' board_str) 0
            ⟨0, ChessBoard.default⟩ (by simp)).1
            (by rw [rowsEvents_length]; simp only [hsum]; simpa using hcount)
          rw [herr]
          simp
        · have hd : (decide (stm_str = ['b'])) = false := decide_eq_false hstm
          rw [hd]
          have herr := (parseRowsGo_spec false s (splitOnChar '/' board_str).reverse 0
            ⟨0, ChessBoard.default⟩ (by simp)).1
            (by
              rw [rowsEvents_length]
              rw [List.map_reverse, List.sum_reverse]
              simp only [hsum]
              simpa using hcount)
          rw [herr]
          simp

/-- Witness for C9: a concrete line whose board field holds 33 queens. -/
theorem chess_from_str_33_pieces_errors_witness :
    ((splitWhitespaceChars ((splitOnChar '|'
        "QQQQQQQQ/QQQQQQQQ/QQQQQQQQ/QQQQQQQQ/Q7/8/8/8 w | 0 | 0.5".data).headD [])).get? 0 =
      some "QQQQQQQQ/QQQQQQQQ/QQQQQQQQ/QQQQQQQQ/Q7/8/8/8".data) ∧
    32 < "QQQQQQQQ/QQQQQQQQ/QQQQQQQQ/QQQQQQQQ/Q7/8/8/8".data.countP isPieceChar ∧
    ∀ b, ChessBoard.fromStr
      "QQQQQQQQ/QQQQQQQQ/QQQQQQQQ/QQQQQQQQ/Q7/8/8/8 w | 0 | 0.5".data ≠ .ok b :=
  ⟨by decide, by decide,
    chess_from_str_33_pieces_errors
      "QQQQQQQQ/QQQQQQQQ/QQQQQQQQ/QQQQQQQQ/Q7/8/8/8 w | 0 | 0.5".data
      "QQQQQQQQ/QQQQQQQQ/QQQQQQQQ/QQQQQQQQ/Q7/8/8/8".data
      (by decide) (by decide)⟩

/- ----------------------------------------------------------------- -/
/- Ataxx (src/ataxx.rs)                                              -/
/- ----------------------------------------------------------------- -/

/-- Embedding of `AtaxxBoard`: `bbs` is the `[u64; 3]` of mover, opponent
and blocked squares, `score` an i16, `result`/`halfm`/`extra` u8 fields,
`fullm` a u16, `stm` the side-to-move flag. -/
structure AtaxxBoard where
  bbs : List Nat
  score : Int
  result : Nat
  stm : Bool
  fullm : Nat
  halfm : Nat
  extra : Nat
deriving Repr, DecidableEq

/-- `bbs.swap(0, 1)` on a length-3 array. -/
def swap01 (l : List Nat) : List Nat :=
  match l with
  | a :: b :: rest => b :: a :: rest
  | l => l

/-- Rust `str::parse::<u8>`: optional leading sign, digits, range check. -/
def parseU8 (cs : List Char) : Option Nat :=
  match cs with
  | '+' :: rest => (parseNatStr rest).bind fun n => if n ≤ 255 then some n else none
  | _ => (parseNatStr cs).bind fun n => if n ≤ 255 then some n else none

/-- Rust `str::parse::<u16>`. -/
def parseU16 (cs : List Char) : Option Nat :=
  match cs with
  | '+' :: rest => (parseNatStr rest).bind fun n => if n ≤ 65535 then some n else none
  | _ => (parseNatStr cs).bind fun n => if n ≤ 65535 then some n else none

/-- The inner character loop of `AtaxxBoard::from_str`: piece/owner/block
tokens set a bit in the selected bitboard at the running square index,
empty-run digits advance the index, anything else is an error.  The u64
shift is masked (`idx % 64`, release semantics). -/
def ataxxRowChars : List Char → Nat → List Nat → Except (List Char) (Nat × List Nat)
  | [], idx, bbs => .ok (idx, bbs)
  | ch :: rest, idx, bbs =>
    if ch = 'x' ∨ ch = 'o' ∨ ch = 'r' ∨ ch = 'b' ∨ ch = '-' then
      let bb := (if ch = 'o' ∨ ch = 'b' then 1 else 0) + 2 * (if ch = '-' then 1 else 0)
      ataxxRowChars rest (idx + 1) (bbs.set bb (bbs.getD bb 0 ||| (1 <<< (idx % 64))))
    else if '1' ≤ ch ∧ ch ≤ '7' then
      ataxxRowChars rest (idx + (ch.toNat - '1'.toNat + 1)) bbs
    else .error "Unrecognised Character {ch}".data

/-- The row loop of `AtaxxBoard::from_str` (rows already reversed by the
caller; the square index runs on across rows). -/
def ataxxRows : List (List Char) → Nat → List Nat → Except (List Char) (Nat × List Nat)
  | [], idx, bbs => .ok (idx, bbs)
  | r :: rest, idx, bbs =>
    match ataxxRowChars r idx bbs with
    | .error e => .error e
    | .ok (idx, bbs) => ataxxRows rest idx bbs

/-- The tail of `AtaxxBoard::from_str` after token extraction: board loop,
score, outcome, and the final side-to-move mirror (`bbs.swap(0,1)`,
score negation, `2 - result`). -/
def AtaxxBoard.fromFields (rows : List (List Char)) (stm : Bool)
    (halfm fullm : Nat) (score wdl : List Char) : Except (List Char) AtaxxBoard :=
  match ataxxRows rows.reverse 0 [0, 0, 0] with
  | .error e => .error e
  | .ok (_, bbs) =>
    match parseI16 score with
    | none => .error "Bad score!".data
    | some sc =>
      match parseWdl wdl with
      | none => .error "Bad game result!".data
      | some r =>
        if stm then .ok ⟨swap01 bbs, wrapNeg16 sc, 2 - r, stm, fullm, halfm, 0⟩
        else .ok ⟨bbs, sc, r, stm, fullm, halfm, 0⟩

/-- Embedding of `AtaxxBoard::from_str` on the character list of the input
line.  The half-move and full-move counters fall back to "0" / "1" when
the fields are missing and to 0 / 1 when they do not parse
(`unwrap_or(&"0").parse().unwrap_or(0)` and the "1" analogue). -/
def AtaxxBoard.fromStr (s : List Char) : Except (List Char) AtaxxBoard :=
  let split := splitOnChar '|' s
  let fen := split.headD []
  match split.get? 1 with
  | none => .error "Malformed!".data
  | some scoreF =>
    match split.get? 2 with
    | none => .error "Malformed!".data
    | some wdlF =>
      let parts := splitWhitespaceChars fen
      match parts.get? 0 with
      | none => .error "Malformed FEN!".data
      | some board_str =>
        match parts.get? 1 with
        | none => .error "Malformed FEN!".data
        | some stm_str =>
          AtaxxBoard.fromFields (splitOnChar '/' board_str)
            (stm_str = "o".data ∨ stm_str = "b".data)
            ((parseU8 ((parts.get? 2).getD "0".data)).getD 0)
            ((parseU16 ((parts.get? 3).getD "1".data)).getD 1)
            (trimChars scoreF) (trimChars wdlF)

/-- Fuel-based decimal rendering helper (structural so that it computes in
the kernel); fuel `n` always suffices for value `n`. -/
def toDigitsGo : Nat → Nat → List Char → List Char
  | 0, _, acc => acc
  | fuel + 1, n, acc =>
    if n = 0 then acc
    else toDigitsGo fuel (n / 10) (Char.ofNat (48 + n % 10) :: acc)

/-- Decimal rendering of a natural number (Rust `{}` formatting). -/
def natToChars (n : Nat) : List Char :=
  if n = 0 then ['0'] else toDigitsGo n n []

/-- Decimal rendering of an integer (Rust `{}` formatting of a signed
value). -/
def intToChars (i : Int) : List Char :=
  if i < 0 then '-' :: natToChars (-i).toNat else natToChars i.toNat

/-- The owner code of one square in the Display loop:
`usize::from(bit & bbs[0] > 0) + 2 * usize::from(bit & bbs[1] > 0) +
3 * usize::from(bit & bbs[2] > 0)`. -/
def pcAt (bbs : List Nat) (sq : Nat) : Nat :=
  (if (1 <<< sq) &&& bbs.getD 0 0 > 0 then 1 else 0) +
    2 * (if (1 <<< sq) &&& bbs.getD 1 0 > 0 then 1 else 0) +
    3 * (if (1 <<< sq) &&& bbs.getD 2 0 > 0 then 1 else 0)

/-- The inner `for j in 0..7` loop of the Display impl, with `fuel`
counting the remaining columns.  `[".", "x", "o", "-"][pc]` is modelled
with a default (the Rust index panics for pc > 3, which is unreachable
when the three bitboards are disjoint, the only case any theorem below
uses). -/
def ataxxRowGo (bbs : List Nat) (i : Nat) : Nat → Nat → Nat → List Char
  | 0, _, empty => if 0 < empty then natToChars empty else []
  | fuel + 1, j, empty =>
    let pc := pcAt bbs (7 * i + j)
    if pc = 0 then ataxxRowGo bbs i fuel (j + 1) (empty + 1)
    else
      (if 0 < empty then natToChars empty else []) ++
        [".".data, "x".data, "o".data, "-".data].getD pc "?".data ++
        ataxxRowGo bbs i fuel (j + 1) 0

/-- The outer `for i in (0..7).rev()` loop of the Display impl, with the
`/` separators between ranks. -/
def displayRowsGo (bbs : List Nat) : List Nat → List Char
  | [] => []
  | i :: rest =>
    ataxxRowGo bbs i 7 0 0 ++ (if 0 < i then ['/'] else []) ++
      displayRowsGo bbs rest

/-- `{:.1}` formatting of `f32::from(result) / 2.0` for the reachable
result codes {0, 1, 2}. -/
def fmtResult (r : Nat) : List Char :=
  ["0.0".data, "0.5".data, "1.0".data].getD r "?".data

/-- Embedding of `impl Display for AtaxxBoard`: un-mirror when the stored
side to move is the second player, then render
`{fen} {stm} {halfm} {fullm} | {score} | {result}`. -/
def AtaxxBoard.display (b : AtaxxBoard) : List Char :=
  let bbs := if b.stm then swap01 b.bbs else b.bbs
  let score := if b.stm then wrapNeg16 b.score else b.score
  let result := if b.stm then twoMinus8 b.result else b.result
  displayRowsGo bbs [6, 5, 4, 3, 2, 1, 0] ++
    [' '] ++ (if b.stm then "o".data else "x".data) ++
    [' '] ++ natToChars b.halfm ++
    [' '] ++ natToChars b.fullm ++
    " | ".data ++ intToChars score ++
    " | ".data ++ fmtResult result

theorem char_le_iff {a b : Char} : a ≤ b ↔ a.toNat ≤ b.toNat := by
  rw [Char.le_def]; rfl

theorem char_toNat_ofNat {n : Nat} (h : n < 55296) : (Char.ofNat n).toNat = n := by
  unfold Char.ofNat Char.toNat
  rw [dif_pos]
  · rfl
  · exact Or.inl (by exact_mod_cast h)

theorem char_ne_of_toNat_ne {a b : Char} (h : a.toNat ≠ b.toNat) : a ≠ b := by
  intro he
  exact h (by rw [he])

/-- Most-significant-first digit list of a natural number (proof-side
companion of `toDigitsGo`). -/
def digitsList (n : Nat) : List Char :=
  if _h : n = 0 then []
  else digitsList (n / 10) ++ [Char.ofNat (48 + n % 10)]
termination_by n
decreasing_by omega

theorem digitsList_zero : digitsList 0 = [] := by rw [digitsList]; simp

theorem digitsList_pos {n : Nat} (h : n ≠ 0) :
    digitsList n = digitsList (n / 10) ++ [Char.ofNat (48 + n % 10)] := by
  rw [digitsList]; simp [h]

theorem toDigitsGo_eq : ∀ fuel n acc, n ≤ fuel →
    toDigitsGo fuel n acc = digitsList n ++ acc := by
  intro fuel
  induction fuel with
  | zero =>
    intro n acc h
    have : n = 0 := by omega
    subst this
    simp [toDigitsGo, digitsList_zero]
  | succ fuel ih =>
    intro n acc h
    by_cases h0 : n = 0
    · subst h0; simp [toDigitsGo, digitsList_zero]
    · rw [toDigitsGo, if_neg h0, ih (n / 10) _ (by omega), digitsList_pos h0]
      simp

theorem natToChars_eq (n : Nat) :
    natToChars n = if n = 0 then ['0'] else digitsList n := by
  unfold natToChars
  by_cases h : n = 0
  · simp [h]
  · rw [if_neg h, if_neg h, toDigitsGo_eq n n [] (Nat.le_refl n)]
    simp

theorem digitsVal_digitsList :
    ∀ n rest v, digitsValAux (digitsList n ++ rest) v =
      digitsValAux rest (v * 10 ^ (digitsList n).length + n) := by
  intro n
  induction n using Nat.strong_induction_on with
  | _ n ih =>
    intro rest v
    by_cases h0 : n = 0
    · subst h0; simp [digitsList_zero]
    · rw [digitsList_pos h0, List.append_assoc, List.singleton_append,
        ih (n / 10) (by omega) (Char.ofNat (48 + n % 10) :: rest) v]
      have hc : (Char.ofNat (48 + n % 10)).toNat = 48 + n % 10 :=
        char_toNat_ofNat (by omega)
      have hdig : '0' ≤ Char.ofNat (48 + n % 10) ∧ Char.ofNat (48 + n % 10) ≤ '9' := by
        constructor <;> rw [char_le_iff, hc] <;> simp <;> omega
      simp only [digitsValAux]
      rw [if_pos hdig, hc]
      have harith : 10 * (v * 10 ^ (digitsList (n / 10)).length + n / 10) +
          (48 + n % 10 - '0'.toNat) =
          v * 10 ^ (digitsList (n / 10) ++ [Char.ofNat (48 + n % 10)]).length + n := by
        simp only [List.length_append, List.length_singleton]
        have : '0'.toNat = 48 := by decide
        rw [this, pow_succ]
        have : 48 + n % 10 - 48 = n % 10 := by omega
        rw [this]
        have := Nat.div_add_mod n 10
        ring_nf
        omega
      rw [harith]

theorem parseNatStr_natToChars (n : Nat) : parseNatStr (natToChars n) = some n := by
  rw [natToChars_eq]
  by_cases h : n = 0
  · subst h; simp [parseNatStr, digitsValAux]
  · rw [if_neg h]
    have hne : digitsList n ≠ [] := by
      rw [digitsList_pos h]
      simp
    unfold parseNatStr
    rw [if_neg (by simpa using hne)]
    have := digitsVal_digitsList n [] 0
    simpa [digitsValAux] using this

theorem digitsList_digits {n : Nat} :
    ∀ c ∈ digitsList n, 48 ≤ c.toNat ∧ c.toNat ≤ 57 := by
  induction n using Nat.strong_induction_on with
  | _ n ih =>
    intro c hc
    by_cases h0 : n = 0
    · subst h0; rw [digitsList_zero] at hc; simp at hc
    · rw [digitsList_pos h0, List.mem_append] at hc
      rcases hc with hc | hc
      · exact ih (n / 10) (by omega) c hc
      · simp at hc
        subst hc
        rw [char_toNat_ofNat (by omega)]
        omega

theorem natToChars_digits {n : Nat} :
    ∀ c ∈ natToChars n, 48 ≤ c.toNat ∧ c.toNat ≤ 57 := by
  rw [natToChars_eq]
  by_cases h : n = 0
  · simp [h]
  · rw [if_neg h]
    exact digitsList_digits

theorem natToChars_ne_nil (n : Nat) : natToChars n ≠ [] := by
  rw [natToChars_eq]
  by_cases h : n = 0
  · simp [h]
  · rw [if_neg h, digitsList_pos h]
    simp

theorem parseU8_not_plus {c : Char} (h : c ≠ '+') (cs : List Char) :
    parseU8 (c :: cs) =
      (parseNatStr (c :: cs)).bind fun n => if n ≤ 255 then some n else none := by
  unfold parseU8
  split
  · rename_i heq
    rw [List.cons.injEq] at heq
    exact absurd heq.1 h
  · rfl

theorem parseU16_not_plus {c : Char} (h : c ≠ '+') (cs : List Char) :
    parseU16 (c :: cs) =
      (parseNatStr (c :: cs)).bind fun n => if n ≤ 65535 then some n else none := by
  unfold parseU16
  split
  · rename_i heq
    rw [List.cons.injEq] at heq
    exact absurd heq.1 h
  · rfl

theorem parseI16_digit_head {c : Char} (hp : c ≠ '+') (hm : c ≠ '-')
    (cs : List Char) :
    parseI16 (c :: cs) =
      (parseNatStr (c :: cs)).bind fun n => if n ≤ 32767 then some (n : Int) else none := by
  unfold parseI16
  split
  · rename_i heq
    rw [List.cons.injEq] at heq
    exact absurd heq.1 hp
  · rename_i heq
    rw [List.cons.injEq] at heq
    exact absurd heq.1 hm
  · rfl

theorem parseU8_natToChars {n : Nat} (h : n ≤ 255) :
    parseU8 (natToChars n) = some n := by
  rcases hcs : natToChars n with _ | ⟨c, cs⟩
  · exact absurd hcs (natToChars_ne_nil n)
  · have hd : 48 ≤ c.toNat ∧ c.toNat ≤ 57 := by
      apply natToChars_digits
      rw [hcs]; simp
    rw [parseU8_not_plus (char_ne_of_toNat_ne (by simp; omega)) cs, ← hcs,
      parseNatStr_natToChars]
    simp [h]

theorem parseU16_natToChars {n : Nat} (h : n ≤ 65535) :
    parseU16 (natToChars n) = some n := by
  rcases hcs : natToChars n with _ | ⟨c, cs⟩
  · exact absurd hcs (natToChars_ne_nil n)
  · have hd : 48 ≤ c.toNat ∧ c.toNat ≤ 57 := by
      apply natToChars_digits
      rw [hcs]; simp
    rw [parseU16_not_plus (char_ne_of_toNat_ne (by simp; omega)) cs, ← hcs,
      parseNatStr_natToChars]
    simp [h]

theorem parseI16_intToChars {v : Int} (h1 : -32768 ≤ v) (h2 : v ≤ 32767) :
    parseI16 (intToChars v) = some v := by
  unfold intToChars
  by_cases hv : v < 0
  · rw [if_pos hv]
    show parseI16 ('-' :: natToChars (-v).toNat) = some v
    unfold parseI16
    split
    · rename_i heq
      rw [List.cons.injEq] at heq
      exact absurd heq.1 (by decide)
    · rename_i rest heq
      rw [List.cons.injEq] at heq
      rw [← heq.2, parseNatStr_natToChars]
      have hle : (-v).toNat ≤ 32768 := by omega
      simp only [Option.bind]
      rw [if_pos hle]
      congr 1
      omega
    · rename_i hne
      exact absurd rfl (hne (natToChars (-v).toNat))
  · rw [if_neg hv]
    rcases hcs : natToChars v.toNat with _ | ⟨c, cs⟩
    · exact absurd hcs (natToChars_ne_nil _)
    · have hd : 48 ≤ c.toNat ∧ c.toNat ≤ 57 := by
        apply natToChars_digits
        rw [hcs]; simp
      rw [parseI16_digit_head (char_ne_of_toNat_ne (by simp; omega))
        (char_ne_of_toNat_ne (by simp; omega)) cs, ← hcs,
        parseNatStr_natToChars]
      have hle : v.toNat ≤ 32767 := by omega
      simp only [Option.bind]
      rw [if_pos hle]
      congr 1
      omega

theorem splitOnChar_no_sep {c : Char} {a : List Char} (h : ∀ x ∈ a, x ≠ c) :
    splitOnChar c a = [a] := by
  induction a with
  | nil => rfl
  | cons x rest ih =>
    have hx : x ≠ c := h x (by simp)
    simp only [splitOnChar, if_neg hx]
    rw [ih (fun y hy => h y (by simp [hy]))]

theorem splitOnChar_sep {c : Char} {a : List Char} (rest : List Char)
    (h : ∀ x ∈ a, x ≠ c) :
    splitOnChar c (a ++ c :: rest) = a :: splitOnChar c rest := by
  induction a with
  | nil => simp [splitOnChar]
  | cons x a' ih =>
    have hx : x ≠ c := h x (by simp)
    simp only [List.cons_append, splitOnChar, if_neg hx, List.append_eq]
    rw [ih (fun y hy => h y (by simp [hy]))]

theorem splitOnPred_no_sep {p : Char → Bool} {a : List Char}
    (h : ∀ x ∈ a, p x = false) :
    splitOnPred p a = [a] := by
  induction a with
  | nil => rfl
  | cons x rest ih =>
    have hx : p x = false := h x (by simp)
    simp only [splitOnPred, hx, Bool.false_eq_true, if_false]
    rw [ih (fun y hy => h y (by simp [hy]))]

theorem splitOnPred_sep {p : Char → Bool} {a : List Char} {s : Char}
    (rest : List Char) (hs : p s = true) (h : ∀ x ∈ a, p x = false) :
    splitOnPred p (a ++ s :: rest) = a :: splitOnPred p rest := by
  induction a with
  | nil => simp [splitOnPred, hs]
  | cons x a' ih =>
    have hx : p x = false := h x (by simp)
    simp only [List.cons_append, splitOnPred, hx, Bool.false_eq_true, if_false,
      List.append_eq]
    rw [ih (fun y hy => h y (by simp [hy]))]

theorem splitWhitespaceChars_sep {a : List Char} (rest : List Char)
    (hne : a ≠ []) (h : ∀ x ∈ a, x.isWhitespace = false) :
    splitWhitespaceChars (a ++ ' ' :: rest) = a :: splitWhitespaceChars rest := by
  unfold splitWhitespaceChars
  rw [splitOnPred_sep rest (by decide) h]
  rw [List.filter_cons]
  simp [hne]

theorem splitWhitespaceChars_last {a : List Char}
    (hne : a ≠ []) (h : ∀ x ∈ a, x.isWhitespace = false) :
    splitWhitespaceChars a = [a] := by
  unfold splitWhitespaceChars
  rw [splitOnPred_no_sep h, List.filter_cons]
  simp [hne]

theorem splitWhitespaceChars_nil : splitWhitespaceChars [] = [] := by decide

theorem dropWhile_nonws {x : List Char} (h : ∀ ch ∈ x, ch.isWhitespace = false) :
    x.dropWhile Char.isWhitespace = x := by
  cases x with
  | nil => rfl
  | cons c rest =>
    rw [List.dropWhile_cons]
    simp [h c (by simp)]

theorem trimChars_of_nonws {x : List Char} (h : ∀ ch ∈ x, ch.isWhitespace = false) :
    trimChars x = x := by
  unfold trimChars
  rw [dropWhile_nonws h, dropWhile_nonws (by
    intro ch hch
    exact h ch (by simpa using hch)), List.reverse_reverse]

theorem trimChars_space_wrap {x : List Char} (hne : x ≠ [])
    (h : ∀ ch ∈ x, ch.isWhitespace = false) :
    trimChars (' ' :: (x ++ [' '])) = x := by
  unfold trimChars
  rw [List.dropWhile_cons]
  simp only [Char.isWhitespace, show (' '.isWhitespace) = true from rfl]
  rw [if_pos (by decide)]
  have h1 : (x ++ [' ']).dropWhile Char.isWhitespace = x ++ [' '] := by
    cases hx : x with
    | nil => exact absurd hx hne
    | cons c rest =>
      rw [List.cons_append, List.dropWhile_cons]
      simp [h c (by simp [hx])]
  rw [h1, List.reverse_append]
  simp only [List.reverse_cons, List.reverse_nil, List.nil_append,
    List.singleton_append, List.dropWhile_cons]
  rw [if_pos (by decide), dropWhile_nonws (by
    intro ch hch
    exact h ch (by simpa using hch)), List.reverse_reverse]

theorem trimChars_space_left {x : List Char}
    (h : ∀ ch ∈ x, ch.isWhitespace = false) :
    trimChars (' ' :: x) = x := by
  unfold trimChars
  rw [List.dropWhile_cons, if_pos (by decide), dropWhile_nonws h,
    dropWhile_nonws (by
      intro ch hch
      exact h ch (by simpa using hch)), List.reverse_reverse]

/-- Well-formed ataxx bitboard array: three u64 boards confined to the 49
squares and pairwise disjoint. -/
def WfBits (bbs : List Nat) : Prop :=
  bbs.length = 3 ∧ (∀ k ∈ bbs, k < 2 ^ 49) ∧
    bbs.getD 0 0 &&& bbs.getD 1 0 = 0 ∧
    bbs.getD 0 0 &&& bbs.getD 2 0 = 0 ∧
    bbs.getD 1 0 &&& bbs.getD 2 0 = 0

instance (bbs : List Nat) : Decidable (WfBits bbs) := by
  unfold WfBits
  infer_instance

/-- The parse-side update for one displayed square (no-op for an empty
square, otherwise OR the square bit into board `pc - 1`). -/
def setSq (acc bbs : List Nat) (sq : Nat) : List Nat :=
  if pcAt bbs sq = 0 then acc
  else acc.set (pcAt bbs sq - 1) (acc.getD (pcAt bbs sq - 1) 0 ||| (1 <<< (sq % 64)))

/-- `setSq` over `count` consecutive squares starting at `start`. -/
def setRange (acc bbs : List Nat) : Nat → Nat → List Nat
  | _, 0 => acc
  | start, c + 1 => setRange (setSq acc bbs start) bbs (start + 1) c

theorem natToChars_single {n : Nat} (h1 : 0 < n) (h9 : n ≤ 9) :
    natToChars n = [Char.ofNat (48 + n)] := by
  rw [natToChars_eq, if_neg (by omega), digitsList_pos (by omega)]
  have hd : n / 10 = 0 := by omega
  have hm : n % 10 = n := by omega
  rw [hd, hm, digitsList_zero]
  simp

theorem ataxx_digit_step {empty : Nat} (h1 : 0 < empty) (h7 : empty ≤ 7)
    (tail : List Char) (idx : Nat) (acc : List Nat) :
    ataxxRowChars (natToChars empty ++ tail) idx acc =
      ataxxRowChars tail (idx + empty) acc := by
  rw [natToChars_single h1 (by omega)]
  have hc : (Char.ofNat (48 + empty)).toNat = 48 + empty :=
    char_toNat_ofNat (by omega)
  show ataxxRowChars (Char.ofNat (48 + empty) :: tail) idx acc = _
  simp only [ataxxRowChars]
  rw [if_neg ?hno, if_pos ?hyes]
  case hno =>
    rintro (h | h | h | h | h) <;> rw [h] at hc <;>
      [rw [(by decide : ('x').toNat = 120)] at hc;
       rw [(by decide : ('o').toNat = 111)] at hc;
       rw [(by decide : ('r').toNat = 114)] at hc;
       rw [(by decide : ('b').toNat = 98)] at hc;
       rw [(by decide : ('-').toNat = 45)] at hc] <;> omega
  case hyes =>
    constructor <;> rw [char_le_iff, hc] <;>
      simp [show ('1').toNat = 49 from rfl, show ('7').toNat = 55 from rfl] <;>
      omega
  congr 1
  rw [hc]
  have : ('1').toNat = 49 := rfl
  omega

theorem two_pow_land (sq v : Nat) :
    (2 ^ sq) &&& v = if v.testBit sq then 2 ^ sq else 0 := by
  apply Nat.eq_of_testBit_eq
  intro j
  rw [Nat.testBit_land, Nat.testBit_two_pow]
  cases hv : v.testBit sq with
  | true =>
    rw [if_pos rfl]
    by_cases hj : sq = j
    · subst hj; simp [hv]
    · simp [hj, Nat.testBit_two_pow]
  | false =>
    rw [if_neg (by simp)]
    by_cases hj : sq = j
    · subst hj; simp [hv, Nat.zero_testBit]
    · simp [hj, Nat.zero_testBit]

theorem pcIndicator (v sq : Nat) : (0 < (1 <<< sq) &&& v) ↔ v.testBit sq = true := by
  have h1 : (1 : Nat) <<< sq = 2 ^ sq := by
    rw [Nat.shiftLeft_eq, Nat.one_mul]
  rw [h1, two_pow_land]
  cases hv : v.testBit sq
  · simp
  · simp [Nat.pos_pow_of_pos]

theorem land_disjoint_not_both {x y sq : Nat} (h : x &&& y = 0)
    (hx : x.testBit sq = true) : y.testBit sq = false := by
  by_contra hy
  simp only [Bool.not_eq_false] at hy
  have : (x &&& y).testBit sq = true := by
    rw [Nat.testBit_land, hx, hy]; rfl
  rw [h, Nat.zero_testBit] at this
  exact absurd this (by simp)

theorem pcAt_cases {bbs : List Nat} (hwf : WfBits bbs) (sq : Nat) :
    (pcAt bbs sq = 0 ∧ ∀ k, k < 3 → (bbs.getD k 0).testBit sq = false) ∨
    (∃ k, k < 3 ∧ pcAt bbs sq = k + 1 ∧ (bbs.getD k 0).testBit sq = true ∧
      ∀ k2, k2 < 3 → k2 ≠ k → (bbs.getD k2 0).testBit sq = false) := by
  obtain ⟨hlen, hlt, h01, h02, h12⟩ := hwf
  have e0 : (if 0 < (1 <<< sq) &&& bbs.getD 0 0 then 1 else 0) =
      (if (bbs.getD 0 0).testBit sq = true then 1 else 0) := by
    simp [pcIndicator]
  have e1 : (if 0 < (1 <<< sq) &&& bbs.getD 1 0 then 1 else 0) =
      (if (bbs.getD 1 0).testBit sq = true then 1 else 0) := by
    simp [pcIndicator]
  have e2 : (if 0 < (1 <<< sq) &&& bbs.getD 2 0 then 1 else 0) =
      (if (bbs.getD 2 0).testBit sq = true then 1 else 0) := by
    simp [pcIndicator]
  have hpc : pcAt bbs sq =
      (if (bbs.getD 0 0).testBit sq = true then 1 else 0) +
        2 * (if (bbs.getD 1 0).testBit sq = true then 1 else 0) +
        3 * (if (bbs.getD 2 0).testBit sq = true then 1 else 0) := by
    unfold pcAt
    rw [Nat.land_comm ((1:Nat) <<< sq) _, Nat.land_comm ((1:Nat) <<< sq) _,
      Nat.land_comm ((1:Nat) <<< sq) _] at *
    rw [← e0, ← e1, ← e2]
  cases hb0 : (bbs.getD 0 0).testBit sq with
  | true =>
    refine Or.inr ⟨0, by omega, ?_, hb0, ?_⟩
    · rw [hpc, hb0, land_disjoint_not_both h01 hb0, land_disjoint_not_both h02 hb0]
      simp
    · intro k2 hk2 hne
      interval_cases k2
      · exact absurd rfl hne
      · exact land_disjoint_not_both h01 hb0
      · exact land_disjoint_not_both h02 hb0
  | false =>
    cases hb1 : (bbs.getD 1 0).testBit sq with
    | true =>
      refine Or.inr ⟨1, by omega, ?_, hb1, ?_⟩
      · rw [hpc, hb0, hb1, land_disjoint_not_both h12 hb1]
        simp
      · intro k2 hk2 hne
        interval_cases k2
        · exact hb0
        · exact absurd rfl hne
        · exact land_disjoint_not_both h12 hb1
    | false =>
      cases hb2 : (bbs.getD 2 0).testBit sq with
      | true =>
        refine Or.inr ⟨2, by omega, ?_, hb2, ?_⟩
        · rw [hpc, hb0, hb1, hb2]
          simp
        · intro k2 hk2 hne
          interval_cases k2
          · exact hb0
          · exact hb1
          · exact absurd rfl hne
      | false =>
        refine Or.inl ⟨?_, ?_⟩
        · rw [hpc, hb0, hb1, hb2]
          simp
        · intro k hk
          interval_cases k
          · exact hb0
          · exact hb1
          · exact hb2

theorem ataxx_piece_step {dbbs : List Nat} {sq pc : Nat} (hpc : pcAt dbbs sq = pc)
    (hrange : 1 ≤ pc ∧ pc ≤ 3) (tail : List Char) (acc : List Nat) :
    ataxxRowChars (([".".data, "x".data, "o".data, "-".data].getD pc "?".data) ++ tail)
        sq acc =
      ataxxRowChars tail (sq + 1) (setSq acc dbbs sq) := by
  have hset : setSq acc dbbs sq =
      acc.set (pc - 1) (acc.getD (pc - 1) 0 ||| (1 <<< (sq % 64))) := by
    unfold setSq
    rw [hpc, if_neg (by omega)]
  obtain ⟨hl, hr⟩ := hrange
  interval_cases pc
  · show ataxxRowChars ('x' :: tail) sq acc = _
    simp only [ataxxRowChars]
    rw [if_pos (by decide), hset,
      (by decide : ((if ('x' : Char) = 'o' ∨ ('x' : Char) = 'b' then 1 else 0) +
        2 * (if ('x' : Char) = '-' then 1 else 0)) = 0)]
  · show ataxxRowChars ('o' :: tail) sq acc = _
    simp only [ataxxRowChars]
    rw [if_pos (by decide), hset]
    rw [if_pos (Or.inl trivial), if_neg (by decide : ¬ ('o' : Char) = '-')]
  · show ataxxRowChars ('-' :: tail) sq acc = _
    simp only [ataxxRowChars]
    rw [if_pos (by decide), hset]
    rw [if_neg (by decide : ¬ (('-' : Char) = 'o' ∨ ('-' : Char) = 'b')),
      if_pos trivial]

theorem ataxxRow_RT (dbbs : List Nat) (hwf : WfBits dbbs) (i : Nat)
    (rest : List Char) :
    ∀ fuel j empty acc, j + fuel = 7 → empty ≤ j →
      ataxxRowChars (ataxxRowGo dbbs i fuel j empty ++ rest)
          (7 * i + (j - empty)) acc =
        ataxxRowChars rest (7 * i + 7) (setRange acc dbbs (7 * i + j) fuel) := by
  intro fuel
  induction fuel with
  | zero =>
    intro j empty acc hj hemp
    have hj7 : j = 7 := by omega
    subst hj7
    simp only [ataxxRowGo, setRange]
    by_cases h0 : 0 < empty
    · rw [if_pos h0, ataxx_digit_step h0 (by omega) rest _ acc]
      congr 1
      omega
    · rw [if_neg h0, List.nil_append]
      congr 1
      omega
  | succ fuel ih =>
    intro j empty acc hj hemp
    simp only [ataxxRowGo, setRange]
    by_cases hpc0 : pcAt dbbs (7 * i + j) = 0
    · rw [if_pos hpc0]
      have hs : setSq acc dbbs (7 * i + j) = acc := by
        unfold setSq
        rw [if_pos hpc0]
      have := ih (j + 1) (empty + 1) acc (by omega) (by omega)
      rw [show (j + 1) - (empty + 1) = j - empty by omega] at this
      rw [this, hs]
      congr 2
    · rw [if_neg hpc0]
      have hpc3 : 1 ≤ pcAt dbbs (7 * i + j) ∧ pcAt dbbs (7 * i + j) ≤ 3 := by
        rcases pcAt_cases hwf (7 * i + j) with ⟨h, _⟩ | ⟨k, hk, hpck, _, _⟩
        · exact absurd h hpc0
        · omega
      rw [List.append_assoc, List.append_assoc]
      by_cases h0 : 0 < empty
      · rw [if_pos h0, ataxx_digit_step h0 (by omega) _ _ acc,
          show 7 * i + (j - empty) + empty = 7 * i + j by omega,
          ataxx_piece_step rfl hpc3 _ acc]
        have := ih (j + 1) 0 (setSq acc dbbs (7 * i + j)) (by omega) (by omega)
        rw [show (j + 1) - 0 = j + 1 by omega] at this
        rw [show 7 * i + j + 1 = 7 * i + (j + 1) by omega, this]
      · rw [if_neg h0, List.nil_append,
          show 7 * i + (j - empty) = 7 * i + j by omega,
          ataxx_piece_step rfl hpc3 _ acc]
        have := ih (j + 1) 0 (setSq acc dbbs (7 * i + j)) (by omega) (by omega)
        rw [show (j + 1) - 0 = j + 1 by omega] at this
        rw [show 7 * i + j + 1 = 7 * i + (j + 1) by omega, this]

theorem digit_not_ws {c : Char} (h : 48 ≤ c.toNat ∧ c.toNat ≤ 57) :
    c.isWhitespace = false := by
  have h32 : c ≠ ' ' := char_ne_of_toNat_ne (by rw [(by decide : (' ').toNat = 32)]; omega)
  have h9 : c ≠ '\t' := char_ne_of_toNat_ne (by rw [(by decide : ('\t').toNat = 9)]; omega)
  have h10 : c ≠ '\n' := char_ne_of_toNat_ne (by rw [(by decide : ('\n').toNat = 10)]; omega)
  have h13 : c ≠ '\x0d' := char_ne_of_toNat_ne (by rw [(by decide : ('\x0d').toNat = 13)]; omega)
  simp [Char.isWhitespace, h32, h9, h10, h13]

/-- Character-set fact for one displayed ataxx row: every character is an
empty-run digit or one of x / o / -. -/
theorem ataxxRowGo_chars {dbbs : List Nat} (hwf : WfBits dbbs) (i : Nat) :
    ∀ fuel j empty, empty + fuel ≤ 9 →
      ∀ c ∈ ataxxRowGo dbbs i fuel j empty,
        (48 ≤ c.toNat ∧ c.toNat ≤ 57) ∨ c = 'x' ∨ c = 'o' ∨ c = '-' := by
  intro fuel
  induction fuel with
  | zero =>
    intro j empty hle c hc
    simp only [ataxxRowGo] at hc
    by_cases h0 : 0 < empty
    · rw [if_pos h0] at hc
      exact Or.inl (natToChars_digits c hc)
    · rw [if_neg h0] at hc
      simp at hc
  | succ fuel ih =>
    intro j empty hle c hc
    simp only [ataxxRowGo] at hc
    by_cases hpc0 : pcAt dbbs (7 * i + j) = 0
    · rw [if_pos hpc0] at hc
      exact ih (j + 1) (empty + 1) (by omega) c hc
    · rw [if_neg hpc0] at hc
      have hpc3 : pcAt dbbs (7 * i + j) ≤ 3 := by
        rcases pcAt_cases hwf (7 * i + j) with ⟨h, _⟩ | ⟨k, hk, hpck, _, _⟩
        · exact absurd h hpc0
        · omega
      rw [List.mem_append, List.mem_append] at hc
      rcases hc with (hc | hc) | hc
      · by_cases h0 : 0 < empty
        · rw [if_pos h0] at hc
          exact Or.inl (natToChars_digits c hc)
        · rw [if_neg h0] at hc
          simp at hc
      · have h1 : 1 ≤ pcAt dbbs (7 * i + j) := by omega
        interval_cases hp : pcAt dbbs (7 * i + j) <;> simp at hc <;> simp [hc]
      · exact ih (j + 1) 0 (by omega) c hc

theorem setSq_length (acc bbs : List Nat) (sq : Nat) :
    (setSq acc bbs sq).length = acc.length := by
  unfold setSq
  by_cases h : pcAt bbs sq = 0
  · rw [if_pos h]
  · rw [if_neg h]
    exact List.length_set acc _ _

theorem setRange_length (bbs : List Nat) :
    ∀ c s acc, (setRange acc bbs s c).length = acc.length := by
  intro c
  induction c with
  | zero => intro s acc; rfl
  | succ c ih =>
    intro s acc
    show (setRange (setSq acc bbs s) bbs (s + 1) c).length = _
    rw [ih, setSq_length]

theorem setSq_getD {bbs : List Nat} (hwf : WfBits bbs) {acc : List Nat}
    (hlen : acc.length = 3) (s : Nat) (hs : s < 64) (k : Nat) (hk : k < 3)
    (q : Nat) :
    ((setSq acc bbs s).getD k 0).testBit q =
      ((acc.getD k 0).testBit q || (decide (q = s) && (bbs.getD k 0).testBit q)) := by
  rcases pcAt_cases hwf s with ⟨hpc, hall⟩ | ⟨k0, hk0, hpc, hbit, hothers⟩
  · unfold setSq
    rw [if_pos hpc]
    by_cases hq : q = s
    · subst hq
      rw [hall k hk]
      simp
    · simp [hq]
  · unfold setSq
    rw [if_neg (by omega), hpc]
    have hsub : k0 + 1 - 1 = k0 := by omega
    rw [hsub]
    have hshift : (1 : Nat) <<< (s % 64) = 2 ^ s := by
      rw [Nat.shiftLeft_eq, Nat.one_mul, Nat.mod_eq_of_lt hs]
    by_cases hkk : k = k0
    · subst hkk
      have hget : (acc.set k (acc.getD k 0 ||| (1 <<< (s % 64)))).getD k 0 =
          acc.getD k 0 ||| (1 <<< (s % 64)) := by
        rw [List.getD_eq_getElem _ _ (by rw [List.length_set]; omega)]
        rw [List.getElem_set_self]
      rw [hget, hshift, Nat.testBit_lor, Nat.testBit_two_pow]
      by_cases hq : q = s
      · subst hq
        rw [hbit]
        simp
      · have : ¬ s = q := fun h => hq h.symm
        simp [hq, this]
    · have hget : (acc.set k0 (acc.getD k0 0 ||| (1 <<< (s % 64)))).getD k 0 =
          acc.getD k 0 := by
        rcases Nat.lt_or_ge k acc.length with hkl | hkl
        · rw [List.getD_eq_getElem _ _ (by rw [List.length_set]; omega),
            List.getElem_set_ne (by omega), List.getD_eq_getElem _ _ hkl]
        · omega
      rw [hget]
      by_cases hq : q = s
      · subst hq
        rw [hothers k hk hkk]
        simp
      · simp [hq]

theorem setRange_getD {bbs : List Nat} (hwf : WfBits bbs) :
    ∀ c s acc, acc.length = 3 → s + c ≤ 64 → ∀ k, k < 3 → ∀ q,
      ((setRange acc bbs s c).getD k 0).testBit q =
        ((acc.getD k 0).testBit q ||
          (decide (s ≤ q ∧ q < s + c) && (bbs.getD k 0).testBit q)) := by
  intro c
  induction c with
  | zero =>
    intro s acc hlen hs k hk q
    show ((acc.getD k 0).testBit q) = _
    have : ¬ (s ≤ q ∧ q < s + 0) := by omega
    simp [this]
  | succ c ih =>
    intro s acc hlen hs k hk q
    show ((setRange (setSq acc bbs s) bbs (s + 1) c).getD k 0).testBit q = _
    rw [ih (s + 1) (setSq acc bbs s) (by rw [setSq_length, hlen]) (by omega) k hk q,
      setSq_getD hwf hlen s (by omega) k hk q]
    by_cases h1 : q = s
    · subst h1
      have h2 : ¬ (q + 1 ≤ q ∧ q < q + 1 + c) := by omega
      have h3 : q ≤ q ∧ q < q + (c + 1) := by omega
      simp [h2, h3]
    · by_cases h2 : s + 1 ≤ q ∧ q < s + 1 + c
      · have h3 : s ≤ q ∧ q < s + (c + 1) := by omega
        simp [h1, h2, h3]
      · have h3 : ¬ (s ≤ q ∧ q < s + (c + 1)) := by omega
        simp [h1, h2, h3]

theorem list3_ext {a b : List Nat} (ha : a.length = 3) (hb : b.length = 3)
    (h : ∀ k, k < 3 → a.getD k 0 = b.getD k 0) : a = b := by
  rcases a with _ | ⟨a0, _ | ⟨a1, _ | ⟨a2, _ | ⟨a3, arest⟩⟩⟩⟩ <;> simp at ha
  rcases b with _ | ⟨b0, _ | ⟨b1, _ | ⟨b2, _ | ⟨b3, brest⟩⟩⟩⟩ <;> simp at hb
  have h0 := h 0 (by omega)
  have h1 := h 1 (by omega)
  have h2 := h 2 (by omega)
  simp only [List.getD] at h0 h1 h2
  simp at h0 h1 h2
  rw [h0, h1, h2]

theorem testBit_false_of_lt {x q : Nat} (h : x < 2 ^ 49) (hq : 49 ≤ q) :
    x.testBit q = false := by
  apply Nat.testBit_lt_two_pow
  calc x < 2 ^ 49 := h
    _ ≤ 2 ^ q := Nat.pow_le_pow_right (by omega) hq

theorem setRange_total {dbbs : List Nat} (hwf : WfBits dbbs) :
    setRange [0, 0, 0] dbbs 0 49 = dbbs := by
  have hlen := hwf.1
  have hlt := hwf.2.1
  apply list3_ext (by rw [setRange_length]; rfl) hlen
  intro k hk
  apply Nat.eq_of_testBit_eq
  intro q
  rw [setRange_getD hwf 49 0 [0, 0, 0] rfl (by omega) k hk q]
  have hzero : (([0, 0, 0] : List Nat).getD k 0) = 0 := by
    interval_cases k <;> rfl
  rw [hzero, Nat.zero_testBit, Bool.false_or]
  by_cases hq : q < 49
  · have : (0 ≤ q ∧ q < 0 + 49) := by omega
    simp [this]
  · have h1 : ¬ (0 ≤ q ∧ q < 0 + 49) := by omega
    have h2 : (dbbs.getD k 0).testBit q = false := by
      apply testBit_false_of_lt _ (by omega)
      apply hlt
      rcases Nat.lt_or_ge k dbbs.length with hkl | hkl
      · rw [List.getD_eq_getElem _ _ hkl]
        exact List.getElem_mem hkl
      · omega
    rw [h2, Bool.and_false]

theorem swap01_swap01 {l : List Nat} : swap01 (swap01 l) = l := by
  rcases l with _ | ⟨a, _ | ⟨b, rest⟩⟩ <;> rfl

theorem swap01_wf {l : List Nat} (h : WfBits l) : WfBits (swap01 l) := by
  obtain ⟨hlen, hlt, h01, h02, h12⟩ := h
  rcases l with _ | ⟨a, _ | ⟨b, _ | ⟨c, _ | ⟨d, rest⟩⟩⟩⟩ <;> simp at hlen
  refine ⟨rfl, ?_, ?_, ?_, ?_⟩
  · intro k hkmem
    apply hlt
    simp only [swap01] at hkmem
    simp at hkmem ⊢
    tauto
  · simpa [swap01, List.getD, Nat.land_comm] using h01
  · simpa [swap01, List.getD] using h12
  · simpa [swap01, List.getD] using h02

theorem wrapNeg16_eq_neg {x : Int} (h1 : -32767 ≤ x) (h2 : x ≤ 32767) :
    wrapNeg16 x = -x := by
  unfold wrapNeg16
  omega

theorem wrapNeg16_min : wrapNeg16 (-32768) = -32768 := by decide

theorem wrapNeg16_range {x : Int} (h1 : -32768 ≤ x) (h2 : x ≤ 32767) :
    -32768 ≤ wrapNeg16 x ∧ wrapNeg16 x ≤ 32767 := by
  by_cases hx : x = -32768
  · subst hx; rw [wrapNeg16_min]; omega
  · rw [wrapNeg16_eq_neg (by omega) h2]; omega

theorem wrapNeg16_invol {x : Int} (h1 : -32768 ≤ x) (h2 : x ≤ 32767) :
    wrapNeg16 (wrapNeg16 x) = x := by
  by_cases hx : x = -32768
  · subst hx; rw [wrapNeg16_min, wrapNeg16_min]
  · rw [wrapNeg16_eq_neg (by omega) h2, wrapNeg16_eq_neg (by omega) (by omega)]
    omega

theorem setRange_append (bbs : List Nat) (a : Nat) :
    ∀ b s acc, setRange acc bbs s (a + b) =
      setRange (setRange acc bbs s a) bbs (s + a) b := by
  induction a with
  | zero =>
    intro b s acc
    simp only [Nat.zero_add, Nat.add_zero]
    rfl
  | succ a ih =>
    intro b s acc
    show setRange acc bbs s (a + 1 + b) = _
    have h1 : a + 1 + b = (a + b) + 1 := by omega
    rw [h1]
    show setRange (setSq acc bbs s) bbs (s + 1) (a + b) = _
    rw [ih b (s + 1) (setSq acc bbs s)]
    show setRange (setRange (setSq acc bbs s) bbs (s + 1) a) bbs (s + 1 + a) b =
      setRange (setRange (setSq acc bbs s) bbs (s + 1) a) bbs (s + (a + 1)) b
    congr 1
    omega

theorem ataxxRowGo_no_slash {dbbs : List Nat} (hwf : WfBits dbbs) (i : Nat) :
    ∀ c ∈ ataxxRowGo dbbs i 7 0 0, c ≠ '/' := by
  intro c hc
  rcases ataxxRowGo_chars hwf i 7 0 0 (by omega) c hc with h | h | h | h
  · exact char_ne_of_toNat_ne (by rw [(by decide : ('/').toNat = 47)]; omega)
  · subst h; decide
  · subst h; decide
  · subst h; decide

theorem displayRows_split {dbbs : List Nat} (hwf : WfBits dbbs) :
    splitOnChar '/' (displayRowsGo dbbs [6, 5, 4, 3, 2, 1, 0]) =
      [ataxxRowGo dbbs 6 7 0 0, ataxxRowGo dbbs 5 7 0 0, ataxxRowGo dbbs 4 7 0 0,
       ataxxRowGo dbbs 3 7 0 0, ataxxRowGo dbbs 2 7 0 0, ataxxRowGo dbbs 1 7 0 0,
       ataxxRowGo dbbs 0 7 0 0] := by
  simp only [displayRowsGo]
  rw [if_pos (by omega : (0:Nat) < 6), if_pos (by omega : (0:Nat) < 5),
    if_pos (by omega : (0:Nat) < 4), if_pos (by omega : (0:Nat) < 3),
    if_pos (by omega : (0:Nat) < 2), if_pos (by omega : (0:Nat) < 1),
    if_neg (by omega : ¬ (0:Nat) < 0)]
  simp only [List.append_assoc, List.singleton_append, List.append_nil]
  rw [splitOnChar_sep _ (ataxxRowGo_no_slash hwf 6),
    splitOnChar_sep _ (ataxxRowGo_no_slash hwf 5),
    splitOnChar_sep _ (ataxxRowGo_no_slash hwf 4),
    splitOnChar_sep _ (ataxxRowGo_no_slash hwf 3),
    splitOnChar_sep _ (ataxxRowGo_no_slash hwf 2),
    splitOnChar_sep _ (ataxxRowGo_no_slash hwf 1),
    splitOnChar_no_sep (ataxxRowGo_no_slash hwf 0)]

theorem ataxx_board_roundtrip {dbbs : List Nat} (hwf : WfBits dbbs) :
    ataxxRows (splitOnChar '/' (displayRowsGo dbbs [6, 5, 4, 3, 2, 1, 0])).reverse
        0 [0, 0, 0] = .ok (49, dbbs) := by
  have hrow : ∀ i acc, ataxxRowChars (ataxxRowGo dbbs i 7 0 0) (7 * i) acc =
      .ok (7 * i + 7, setRange acc dbbs (7 * i) 7) := by
    intro i acc
    have h := ataxxRow_RT dbbs hwf i [] 7 0 0 acc (by omega) (by omega)
    rw [List.append_nil] at h
    simpa [ataxxRowChars] using h
  rw [displayRows_split hwf]
  simp only [List.reverse_cons, List.reverse_nil, List.nil_append,
    List.cons_append, List.append_nil]
  have e14 := setRange_append dbbs 7 7 0 [0, 0, 0]
  have e21 := setRange_append dbbs 14 7 0 [0, 0, 0]
  have e28 := setRange_append dbbs 21 7 0 [0, 0, 0]
  have e35 := setRange_append dbbs 28 7 0 [0, 0, 0]
  have e42 := setRange_append dbbs 35 7 0 [0, 0, 0]
  have e49 := setRange_append dbbs 42 7 0 [0, 0, 0]
  norm_num at e14 e21 e28 e35 e42 e49
  have h0 := hrow 0 [0, 0, 0]
  have h1 := hrow 1 (setRange [0, 0, 0] dbbs 0 7)
  have h2 := hrow 2 (setRange [0, 0, 0] dbbs 0 14)
  have h3 := hrow 3 (setRange [0, 0, 0] dbbs 0 21)
  have h4 := hrow 4 (setRange [0, 0, 0] dbbs 0 28)
  have h5 := hrow 5 (setRange [0, 0, 0] dbbs 0 35)
  have h6 := hrow 6 (setRange [0, 0, 0] dbbs 0 42)
  norm_num at h0 h1 h2 h3 h4 h5 h6
  rw [← e14] at h1
  rw [← e21] at h2
  rw [← e28] at h3
  rw [← e35] at h4
  rw [← e42] at h5
  rw [← e49] at h6
  simp only [ataxxRows, h0, h1, h2, h3, h4, h5, h6]
  rw [setRange_total hwf]

theorem twoMinus8_le {r : Nat} (h : r ≤ 2) : twoMinus8 r = 2 - r := by
  unfold twoMinus8
  interval_cases r <;> rfl

theorem parseWdl_le {cs : List Char} {r : Nat} (h : parseWdl cs = some r) :
    r ≤ 2 := by
  unfold parseWdl at h
  split_ifs at h <;> simp at h <;> omega

theorem parseNatStr_nonneg {cs : List Char} {n : Nat} :
    parseNatStr cs = some n → True := fun _ => trivial

theorem parseI16_range {cs : List Char} {v : Int} (h : parseI16 cs = some v) :
    -32768 ≤ v ∧ v ≤ 32767 := by
  unfold parseI16 at h
  split at h <;>
    [skip; skip; skip] <;>
    (rcases hn : parseNatStr _ with _ | n <;> rw [hn] at h <;> simp at h) <;>
    (rcases h with ⟨hle, hv⟩; omega)

theorem fmtResult_parse {r : Nat} (h : r ≤ 2) :
    parseWdl (fmtResult r) = some r := by
  interval_cases r <;> decide

theorem intToChars_chars {v : Int} :
    ∀ c ∈ intToChars v, (48 ≤ c.toNat ∧ c.toNat ≤ 57) ∨ c = '-' := by
  unfold intToChars
  by_cases hv : v < 0
  · rw [if_pos hv]
    intro c hc
    rcases List.mem_cons.mp hc with h | h
    · exact Or.inr h
    · exact Or.inl (natToChars_digits c h)
  · rw [if_neg hv]
    intro c hc
    exact Or.inl (natToChars_digits c hc)

theorem intToChars_ne_nil (v : Int) : intToChars v ≠ [] := by
  unfold intToChars
  by_cases hv : v < 0
  · simp [hv]
  · simp [hv, natToChars_ne_nil]

theorem displayRowsGo_chars {dbbs : List Nat} (hwf : WfBits dbbs) :
    ∀ is, ∀ c ∈ displayRowsGo dbbs is,
      (48 ≤ c.toNat ∧ c.toNat ≤ 57) ∨ c = 'x' ∨ c = 'o' ∨ c = '-' ∨ c = '/' := by
  intro is
  induction is with
  | nil => intro c hc; simp [displayRowsGo] at hc
  | cons i rest ih =>
    intro c hc
    simp only [displayRowsGo, List.mem_append] at hc
    rcases hc with (hc | hc) | hc
    · rcases ataxxRowGo_chars hwf i 7 0 0 (by omega) c hc with h | h | h | h
      · exact Or.inl h
      · exact Or.inr (Or.inl h)
      · exact Or.inr (Or.inr (Or.inl h))
      · exact Or.inr (Or.inr (Or.inr (Or.inl h)))
    · by_cases h0 : 0 < i
      · rw [if_pos h0] at hc
        simp at hc
        exact Or.inr (Or.inr (Or.inr (Or.inr hc)))
      · rw [if_neg h0] at hc
        simp at hc
    · exact ih c hc

theorem fen_charset_not_bar {dbbs : List Nat} (hwf : WfBits dbbs)
    {c : Char} (hc : c ∈ displayRowsGo dbbs [6, 5, 4, 3, 2, 1, 0]) :
    c ≠ '|' := by
  rcases displayRowsGo_chars hwf [6, 5, 4, 3, 2, 1, 0] c hc with
    h | h | h | h | h
  · exact char_ne_of_toNat_ne (by rw [(by decide : ('|').toNat = 124)]; omega)
  · subst h; decide
  · subst h; decide
  · subst h; decide
  · subst h; decide

theorem fen_charset_not_ws {dbbs : List Nat} (hwf : WfBits dbbs)
    {c : Char} (hc : c ∈ displayRowsGo dbbs [6, 5, 4, 3, 2, 1, 0]) :
    c.isWhitespace = false := by
  rcases displayRowsGo_chars hwf [6, 5, 4, 3, 2, 1, 0] c hc with
    h | h | h | h | h
  · exact digit_not_ws h
  · subst h; decide
  · subst h; decide
  · subst h; decide
  · subst h; decide

theorem displayRowsGo_ne_nil (dbbs : List Nat) :
    displayRowsGo dbbs [6, 5, 4, 3, 2, 1, 0] ≠ [] := by
  simp only [displayRowsGo]
  rw [if_pos (by omega : (0:Nat) < 6)]
  intro h
  rcases List.append_eq_nil.mp h with ⟨h1, h2⟩
  rcases List.append_eq_nil.mp h2 with ⟨h3, _⟩
  exact absurd h3 (by simp)

theorem bar_string_eq : " | ".data = [' ', '|', ' '] := by decide

theorem getElem3_1 {α : Type} (a b c : α) : ([a, b, c] : List α)[1]? = some b := rfl

theorem getElem3_2 {α : Type} (a b c : α) : ([a, b, c] : List α)[2]? = some c := rfl

theorem headD3 {α : Type} (a b c : α) (d : α) : ([a, b, c] : List α).headD d = a := rfl

theorem getElem4_0 {α : Type} (a b c d : α) : ([a, b, c, d] : List α)[0]? = some a := rfl

theorem getElem4_1 {α : Type} (a b c d : α) : ([a, b, c, d] : List α)[1]? = some b := rfl

theorem getElem4_2 {α : Type} (a b c d : α) : ([a, b, c, d] : List α)[2]? = some c := rfl

theorem getElem4_3 {α : Type} (a b c d : α) : ([a, b, c, d] : List α)[3]? = some d := rfl

set_option maxHeartbeats 1600000 in
/-- Core of the round-trip contract: re-parsing the display of any
well-formed stored record returns the record itself. -/
theorem ataxx_display_parse (b : AtaxxBoard) (hwf : WfBits b.bbs)
    (hres : b.result ≤ 2) (hs1 : -32768 ≤ b.score) (hs2 : b.score ≤ 32767)
    (hh : b.halfm ≤ 255) (hf : b.fullm ≤ 65535) (hex : b.extra = 0) :
    AtaxxBoard.fromStr b.display = .ok b := by
  have hwfd : WfBits (if b.stm then swap01 b.bbs else b.bbs) := by
    by_cases h : b.stm
    · rw [if_pos h]; exact swap01_wf hwf
    · rw [if_neg h]; exact hwf
  have hd : b.display =
      (displayRowsGo (if b.stm then swap01 b.bbs else b.bbs) [6, 5, 4, 3, 2, 1, 0] ++
        ' ' :: ((if b.stm then "o".data else "x".data) ++
          ' ' :: (natToChars b.halfm ++
            ' ' :: (natToChars b.fullm ++ [' '])))) ++
      '|' :: ((' ' :: (intToChars (if b.stm then wrapNeg16 b.score else b.score) ++ [' '])) ++
      '|' :: (' ' :: fmtResult (if b.stm then twoMinus8 b.result else b.result))) := by
    unfold AtaxxBoard.display
    rw [bar_string_eq]
    simp only [List.append_assoc, List.cons_append, List.nil_append,
      List.singleton_append]
  have htok_ne : (if b.stm then "o".data else "x".data) ≠ [] := by
    by_cases h : b.stm <;> simp [h]
  have htok_nws : ∀ x ∈ (if b.stm then "o".data else "x".data),
      x.isWhitespace = false := by
    by_cases h : b.stm <;> simp [h] <;> decide
  have hH_nws : ∀ x ∈ natToChars b.halfm, x.isWhitespace = false :=
    fun x hx => digit_not_ws (natToChars_digits x hx)
  have hF_nws : ∀ x ∈ natToChars b.fullm, x.isWhitespace = false :=
    fun x hx => digit_not_ws (natToChars_digits x hx)
  have hSC_nws : ∀ x ∈ intToChars (if b.stm then wrapNeg16 b.score else b.score),
      x.isWhitespace = false := by
    intro x hx
    rcases intToChars_chars x hx with h | h
    · exact digit_not_ws h
    · subst h; decide
  have hrs_le : (if b.stm then twoMinus8 b.result else b.result) ≤ 2 := by
    by_cases h : b.stm
    · rw [if_pos h, twoMinus8_le hres]; omega
    · rw [if_neg h]; exact hres
  have hRS_facts : ∀ x ∈ fmtResult (if b.stm then twoMinus8 b.result else b.result),
      x.isWhitespace = false ∧ x ≠ '|' := by
    intro x
    revert hrs_le
    generalize (if b.stm then twoMinus8 b.result else b.result) = r
    intro hle hx
    interval_cases r <;> simp [fmtResult] at hx <;>
      rcases hx with h | h | h <;> subst h <;> exact ⟨by decide, by decide⟩
  have hpart0_nb : ∀ x ∈ (displayRowsGo (if b.stm then swap01 b.bbs else b.bbs)
      [6, 5, 4, 3, 2, 1, 0] ++
        ' ' :: ((if b.stm then "o".data else "x".data) ++
          ' ' :: (natToChars b.halfm ++ ' ' :: (natToChars b.fullm ++ [' '])))),
      x ≠ '|' := by
    intro x hx he
    subst he
    simp only [List.mem_append, List.mem_cons, List.mem_singleton,
      List.not_mem_nil, or_false] at hx
    rcases hx with hx | hx | hx | hx | hx | hx | hx | hx
    · exact absurd rfl (fen_charset_not_bar hwfd hx)
    · exact absurd hx (by decide)
    · by_cases h : b.stm
      · rw [if_pos h] at hx
        exact absurd hx (by decide)
      · rw [if_neg h] at hx
        exact absurd hx (by decide)
    · exact absurd hx (by decide)
    · have := natToChars_digits _ hx
      rw [(by decide : ('|').toNat = 124)] at this
      omega
    · exact absurd hx (by decide)
    · have := natToChars_digits _ hx
      rw [(by decide : ('|').toNat = 124)] at this
      omega
    · exact absurd hx (by decide)
  have hpart1_nb : ∀ x ∈ (' ' :: (intToChars
      (if b.stm then wrapNeg16 b.score else b.score) ++ [' '])), x ≠ '|' := by
    intro x hx he
    subst he
    simp only [List.mem_cons, List.mem_append, List.mem_singleton,
      List.not_mem_nil, or_false] at hx
    rcases hx with hx | hx | hx
    · exact absurd hx (by decide)
    · rcases intToChars_chars _ hx with h | h
      · rw [(by decide : ('|').toNat = 124)] at h
        omega
      · exact absurd h (by decide)
    · exact absurd hx (by decide)
  have hpart2_nb : ∀ x ∈ (' ' :: fmtResult
      (if b.stm then twoMinus8 b.result else b.result)), x ≠ '|' := by
    intro x hx
    rcases List.mem_cons.mp hx with h | h
    · subst h; decide
    · exact (hRS_facts x h).2
  have hsplit : splitOnChar '|' b.display =
      [(displayRowsGo (if b.stm then swap01 b.bbs else b.bbs) [6, 5, 4, 3, 2, 1, 0] ++
          ' ' :: ((if b.stm then "o".data else "x".data) ++
            ' ' :: (natToChars b.halfm ++ ' ' :: (natToChars b.fullm ++ [' '])))),
        (' ' :: (intToChars (if b.stm then wrapNeg16 b.score else b.score) ++ [' '])),
        (' ' :: fmtResult (if b.stm then twoMinus8 b.result else b.result))] := by
    rw [hd, splitOnChar_sep _ hpart0_nb, splitOnChar_sep _ hpart1_nb,
      splitOnChar_no_sep hpart2_nb]
  have hparts : splitWhitespaceChars
      ((displayRowsGo (if b.stm then swap01 b.bbs else b.bbs) [6, 5, 4, 3, 2, 1, 0] ++
        ' ' :: ((if b.stm then "o".data else "x".data) ++
          ' ' :: (natToChars b.halfm ++ ' ' :: (natToChars b.fullm ++ [' ']))))) =
      [displayRowsGo (if b.stm then swap01 b.bbs else b.bbs) [6, 5, 4, 3, 2, 1, 0],
        (if b.stm then "o".data else "x".data),
        natToChars b.halfm, natToChars b.fullm] := by
    rw [splitWhitespaceChars_sep _ (displayRowsGo_ne_nil _)
        (fun x hx => fen_charset_not_ws hwfd hx),
      splitWhitespaceChars_sep _ htok_ne htok_nws,
      splitWhitespaceChars_sep _ (natToChars_ne_nil _) hH_nws]
    have he : natToChars b.fullm ++ [' '] = natToChars b.fullm ++ ' ' :: [] := rfl
    rw [he, splitWhitespaceChars_sep _ (natToChars_ne_nil _) hF_nws,
      splitWhitespaceChars_nil]
  have htrim1 : trimChars (' ' :: (intToChars
      (if b.stm then wrapNeg16 b.score else b.score) ++ [' '])) =
      intToChars (if b.stm then wrapNeg16 b.score else b.score) :=
    trimChars_space_wrap (intToChars_ne_nil _) hSC_nws
  have htrim2 : trimChars (' ' :: fmtResult
      (if b.stm then twoMinus8 b.result else b.result)) =
      fmtResult (if b.stm then twoMinus8 b.result else b.result) :=
    trimChars_space_left (fun x hx => (hRS_facts x hx).1)
  have hscr := wrapNeg16_range hs1 hs2
  have hsc : parseI16 (intToChars (if b.stm then wrapNeg16 b.score else b.score)) =
      some (if b.stm then wrapNeg16 b.score else b.score) := by
    by_cases h : b.stm
    · rw [if_pos h]
      exact parseI16_intToChars (by omega) (by omega)
    · rw [if_neg h]
      exact parseI16_intToChars hs1 hs2
  have hrs : parseWdl (fmtResult (if b.stm then twoMinus8 b.result else b.result)) =
      some (if b.stm then twoMinus8 b.result else b.result) :=
    fmtResult_parse hrs_le
  unfold AtaxxBoard.fromStr
  simp only [List.get?_eq_getElem?]
  rw [hsplit]
  simp only [getElem3_1, getElem3_2, headD3, hparts, getElem4_0, getElem4_1,
    getElem4_2, getElem4_3, Option.getD_some]
  rw [htrim1, htrim2, parseU8_natToChars hh, parseU16_natToChars hf]
  unfold AtaxxBoard.fromFields
  simp only [ataxx_board_roundtrip hwfd, hsc, hrs, Option.getD_some]
  by_cases hstm : b.stm
  · have hdec : (decide ((if b.stm then "o".data else "x".data) = "o".data ∨
        (if b.stm then "o".data else "x".data) = "b".data)) = true := by
      rw [decide_eq_true_iff]
      left
      rw [if_pos hstm]
    rw [hdec]
    simp only [if_true]
    rw [if_pos hstm, if_pos hstm, if_pos hstm, swap01_swap01,
      wrapNeg16_invol hs1 hs2, twoMinus8_le hres]
    have hb : b = ⟨b.bbs, b.score, b.result, b.stm, b.fullm, b.halfm, b.extra⟩ := rfl
    conv_rhs => rw [hb]
    simp only [Except.ok.injEq, AtaxxBoard.mk.injEq]
    exact ⟨trivial, trivial, by omega, hstm.symm, trivial, trivial, hex.symm⟩
  · have hdec : (decide ((if b.stm then "o".data else "x".data) = "o".data ∨
        (if b.stm then "o".data else "x".data) = "b".data)) = false := by
      rw [decide_eq_false_iff_not]
      rw [if_neg hstm]
      rintro (h | h) <;> exact absurd h (by decide)
    rw [hdec]
    simp only [Bool.false_eq_true, if_false]
    rw [if_neg hstm, if_neg hstm, if_neg hstm]
    have hfalse : b.stm = false := by simpa using hstm
    have hb : b = ⟨b.bbs, b.score, b.result, b.stm, b.fullm, b.halfm, b.extra⟩ := rfl
    conv_rhs => rw [hb]
    simp only [Except.ok.injEq, AtaxxBoard.mk.injEq]
    exact ⟨trivial, trivial, trivial, hfalse.symm, trivial, trivial, hex.symm⟩


theorem bindRange_le {o : Option Nat} {c n : Nat}
    (h : (o.bind fun m => if m ≤ c then some m else none) = some n) : n ≤ c := by
  rcases o with _ | m
  · simp at h
  · simp only [Option.some_bind] at h
    split at h
    · simp only [Option.some.injEq] at h
      omega
    · simp at h

theorem parseU8_le {cs : List Char} {n : Nat} (h : parseU8 cs = some n) : n ≤ 255 := by
  unfold parseU8 at h
  split at h <;> exact bindRange_le h

theorem parseU16_le {cs : List Char} {n : Nat} (h : parseU16 cs = some n) : n ≤ 65535 := by
  unfold parseU16 at h
  split at h <;> exact bindRange_le h

theorem parseU8_getD_le (x : List Char) : (parseU8 x).getD 0 ≤ 255 := by
  rcases h : parseU8 x with _ | n
  · simp
  · simpa using parseU8_le h

theorem parseU16_getD_le (x : List Char) : (parseU16 x).getD 1 ≤ 65535 := by
  rcases h : parseU16 x with _ | n
  · simp
  · simpa using parseU16_le h

theorem fromFields_invariants {rows : List (List Char)} {stm : Bool}
    {halfm fullm : Nat} {score wdl : List Char} {b : AtaxxBoard}
    (hh : halfm ≤ 255) (hf : fullm ≤ 65535)
    (h : AtaxxBoard.fromFields rows stm halfm fullm score wdl = .ok b) :
    -32768 ≤ b.score ∧ b.score ≤ 32767 ∧ b.result ≤ 2 ∧ b.halfm ≤ 255 ∧
      b.fullm ≤ 65535 ∧ b.extra = 0 := by
  unfold AtaxxBoard.fromFields at h
  split at h
  · simp at h
  split at h
  · simp at h
  split at h
  · simp at h
  rename_i x1 idx bbs hrows x2 sc hsc x3 r hw
  have hscr := parseI16_range hsc
  have hr := parseWdl_le hw
  split at h <;>
  · rw [Except.ok.injEq] at h
    subst h
    refine ⟨?_, ?_, ?_, hh, hf, rfl⟩
    · first
      | exact (wrapNeg16_range hscr.1 hscr.2).1
      | exact hscr.1
    · first
      | exact (wrapNeg16_range hscr.1 hscr.2).2
      | exact hscr.2
    · first
      | exact Nat.sub_le 2 r
      | exact hr

theorem fromStr_invariants {s : List Char} {b : AtaxxBoard}
    (h : AtaxxBoard.fromStr s = .ok b) :
    -32768 <= b.score ∧ b.score ≤ 32767 ∧ b.result ≤ 2 ∧ b.halfm ≤ 255 ∧
      b.fullm ≤ 65535 ∧ b.extra = 0 := by
  simp only [AtaxxBoard.fromStr] at h
  split at h
  · simp at h
  split at h
  · simp at h
  split at h
  · simp at h
  split at h
  · simp at h
  exact fromFields_invariants (parseU8_getD_le _) (parseU16_getD_le _) h

def scenarioA : List Char := "6o/2x4/1xx4/1xo2oo/2oo3/7/5oo x 3 11 | -570 | 0.0".data

def scenarioABoard : AtaxxBoard :=
  ⟨[139053760512, 281475186622560, 0], -570, 0, false, 11, 3, 0⟩

/-- C2: for every successfully parsed Ataxx text record whose board field
describes a well-formed 7x7 position (the three bitboards fit in 49 bits
and are pairwise disjoint), re-serializing the parsed board via Display
yields a string that parses back to the identical board, so one
parse-display pass is a normal form; in particular parsing the record
"6o/2x4/1xx4/1xo2oo/2oo3/7/5oo x 3 11 | -570 | 0.0" and re-serializing
yields exactly that string. -/
theorem ataxx_text_roundtrip_normalized :
    (∀ (s : List Char) (b : AtaxxBoard), AtaxxBoard.fromStr s = .ok b →
      WfBits b.bbs → AtaxxBoard.fromStr b.display = .ok b) ∧
    AtaxxBoard.fromStr scenarioA = .ok scenarioABoard ∧
    scenarioABoard.display = scenarioA := by
  refine ⟨fun s b hok hwf => ?_, ?_, ?_⟩
  · obtain ⟨h1, h2, h3, h4, h5, h6⟩ := fromStr_invariants hok
    exact ataxx_display_parse b hwf h3 h1 h2 h4 h5 h6
  · decide
  · decide

/-- Witness for C2 at the Scenario A record. -/
theorem ataxx_text_roundtrip_normalized_witness :
    AtaxxBoard.fromStr scenarioABoard.display = .ok scenarioABoard :=
  ataxx_text_roundtrip_normalized.1 scenarioA scenarioABoard (by decide) (by decide)

theorem fromFields_counters (rows : List (List Char)) (stm : Bool)
    (hm fm hm' fm' : Nat) (sc wdl : List Char) :
    AtaxxBoard.fromFields rows stm hm fm sc wdl =
      (AtaxxBoard.fromFields rows stm hm' fm' sc wdl).map
        (fun b => ⟨b.bbs, b.score, b.result, b.stm, fm, hm, b.extra⟩) := by
  unfold AtaxxBoard.fromFields
  rcases hR : ataxxRows rows.reverse 0 [0, 0, 0] with e | p
  · rfl
  rcases p with ⟨idx, bbs⟩
  rcases hsc : parseI16 sc with _ | v
  · rfl
  rcases hw : parseWdl wdl with _ | r
  · rfl
  cases stm <;> rfl

theorem fromFields_counter_vals {rows : List (List Char)} {stm : Bool}
    {hm fm : Nat} {sc wdl : List Char} {b : AtaxxBoard}
    (h : AtaxxBoard.fromFields rows stm hm fm sc wdl = .ok b) :
    b.halfm = hm ∧ b.fullm = fm := by
  unfold AtaxxBoard.fromFields at h
  split at h
  · simp at h
  split at h
  · simp at h
  split at h
  · simp at h
  split at h <;>
  · rw [Except.ok.injEq] at h
    subst h
    exact ⟨rfl, rfl⟩

theorem fromStr_counter_vals {s : List Char} {b : AtaxxBoard}
    (h : AtaxxBoard.fromStr s = .ok b) :
    b.halfm = (parseU8 (((splitWhitespaceChars
        ((splitOnChar '|' s).headD [])).get? 2).getD "0".data)).getD 0 ∧
    b.fullm = (parseU16 (((splitWhitespaceChars
        ((splitOnChar '|' s).headD [])).get? 3).getD "1".data)).getD 1 := by
  simp only [AtaxxBoard.fromStr] at h
  split at h
  · simp at h
  split at h
  · simp at h
  split at h
  · simp at h
  split at h
  · simp at h
  exact fromFields_counter_vals h

/-- C10: the half-move and full-move counter fields of an Ataxx text record
never cause `from_str` to fail.  (i) The outcome of the board/score/result
stage is independent of the counter arguments: changing them only rewrites
the two counter fields of a successful result (so an absent or unparseable
counter can never turn success into failure).  (ii) Every successfully
parsed board carries exactly `parse-or-default` counters, where a missing
third field falls back to the text "0" and a missing fourth to "1".
(iii) The fallbacks evaluate to 0 and 1, and an unparseable counter text
also defaults to 0 (half-move) and 1 (full-move). -/
theorem ataxx_counters_default :
    (∀ (rows : List (List Char)) (stm : Bool) (hm fm hm' fm' : Nat)
        (sc wdl : List Char),
      AtaxxBoard.fromFields rows stm hm fm sc wdl =
        (AtaxxBoard.fromFields rows stm hm' fm' sc wdl).map
          (fun b => ⟨b.bbs, b.score, b.result, b.stm, fm, hm, b.extra⟩)) ∧
    (∀ (s : List Char) (b : AtaxxBoard), AtaxxBoard.fromStr s = .ok b →
      b.halfm = (parseU8 (((splitWhitespaceChars
          ((splitOnChar '|' s).headD [])).get? 2).getD "0".data)).getD 0 ∧
      b.fullm = (parseU16 (((splitWhitespaceChars
          ((splitOnChar '|' s).headD [])).get? 3).getD "1".data)).getD 1) ∧
    ((parseU8 ((none : Option (List Char)).getD "0".data)).getD 0 = 0 ∧
      (parseU16 ((none : Option (List Char)).getD "1".data)).getD 1 = 1) ∧
    (∀ cs : List Char, parseU8 cs = none → (parseU8 cs).getD 0 = 0) ∧
    (∀ cs : List Char, parseU16 cs = none → (parseU16 cs).getD 1 = 1) := by
  refine ⟨fromFields_counters, fun s b h => fromStr_counter_vals h, by decide, ?_, ?_⟩
  · intro cs h
    rw [h]
    rfl
  · intro cs h
    rw [h]
    rfl

/-- Witness for C10: the record "7/7/7/7/7/7/7 x abc | 12 | 0.5" has an
unparseable third field and no fourth field, yet parses successfully with
half-move counter 0 and full-move counter 1. -/
theorem ataxx_counters_default_witness :
    AtaxxBoard.fromStr "7/7/7/7/7/7/7 x abc | 12 | 0.5".data =
        .ok ⟨[0, 0, 0], 12, 1, false, 1, 0, 0⟩ ∧
      (AtaxxBoard.mk [0, 0, 0] 12 1 false 1 0 0).halfm = 0 ∧
      (AtaxxBoard.mk [0, 0, 0] 12 1 false 1 0 0).fullm = 1 := by
  have h := ataxx_counters_default.2.1 "7/7/7/7/7/7/7 x abc | 12 | 0.5".data
    ⟨[0, 0, 0], 12, 1, false, 1, 0, 0⟩ (by decide)
  exact ⟨by decide, h.1.trans (by decide), h.2.trans (by decide)⟩

/-- A character the Ataxx board loop recognises: a piece/owner/blocked
token or an empty-run digit. -/
def isAtaxxTok (ch : Char) : Bool :=
  decide (ch = 'x' ∨ ch = 'o' ∨ ch = 'r' ∨ ch = 'b' ∨ ch = '-') ||
    decide ('1' ≤ ch ∧ ch ≤ '7')

/-- A character the chess board loop recognises: an empty-run digit or a
piece letter. -/
def isChessTok (ch : Char) : Bool :=
  decide ('1' ≤ ch ∧ ch ≤ '8') || (pieceIndex ch).isSome

theorem ataxxRowChars_bad :
    ∀ (row : List Char) (idx : Nat) (bbs : List Nat),
      row.any (fun ch => !isAtaxxTok ch) = true →
      ∀ v, ataxxRowChars row idx bbs ≠ .ok v := by
  intro row
  induction row with
  | nil => intro idx bbs h; simp at h
  | cons ch rest ih =>
    intro idx bbs h v
    simp only [List.any_cons, Bool.or_eq_true] at h
    by_cases h1 : ch = 'x' ∨ ch = 'o' ∨ ch = 'r' ∨ ch = 'b' ∨ ch = '-'
    · have hrest : rest.any (fun ch => !isAtaxxTok ch) = true := by
        rcases h with h | h
        · exfalso
          simp only [isAtaxxTok, Bool.not_eq_true', Bool.or_eq_false_iff,
            decide_eq_false_iff_not] at h
          exact h.1 h1
        · exact h
      rw [ataxxRowChars, if_pos h1]
      exact ih _ _ hrest v
    · by_cases h2 : '1' ≤ ch ∧ ch ≤ '7'
      · have hrest : rest.any (fun ch => !isAtaxxTok ch) = true := by
          rcases h with h | h
          · exfalso
            simp only [isAtaxxTok, Bool.not_eq_true', Bool.or_eq_false_iff,
              decide_eq_false_iff_not] at h
            exact h.2 h2
          · exact h
        rw [ataxxRowChars, if_neg h1, if_pos h2]
        exact ih _ _ hrest v
      · rw [ataxxRowChars, if_neg h1, if_neg h2]
        simp

theorem ataxxRows_bad :
    ∀ (rows : List (List Char)) (idx : Nat) (bbs : List Nat),
      rows.any (fun r => r.any (fun ch => !isAtaxxTok ch)) = true →
      ∀ v, ataxxRows rows idx bbs ≠ .ok v := by
  intro rows
  induction rows with
  | nil => intro idx bbs h; simp at h
  | cons r rest ih =>
    intro idx bbs h v
    simp only [List.any_cons, Bool.or_eq_true] at h
    rw [ataxxRows]
    rcases hrc : ataxxRowChars r idx bbs with e | p
    · simp
    · rcases h with h | h
      · exact absurd hrc (ataxxRowChars_bad r idx bbs h p)
      · rcases p with ⟨idx2, bbs2⟩
        exact ih _ _ h v

theorem countP_pos_any {p : Char → Bool} :
    ∀ (l : List Char), 0 < l.countP p → l.any p = true := by
  intro l h
  rw [List.countP_pos] at h
  obtain ⟨a, ha, hp⟩ := h
  exact List.any_eq_true.mpr ⟨a, ha, hp⟩

theorem splitOnChar_bad_any {l : List Char}
    (h : 0 < l.countP (fun ch => decide (ch ≠ '/') && !isAtaxxTok ch)) :
    (splitOnChar '/' l).any (fun r => r.any (fun ch => !isAtaxxTok ch)) = true := by
  have hsum := splitOnChar_countP_sum
    (p := fun ch => decide (ch ≠ '/') && !isAtaxxTok ch) (c := '/') (by decide) l
  rw [← hsum] at h
  have : ∃ r ∈ splitOnChar '/' l,
      0 < r.countP (fun ch => decide (ch ≠ '/') && !isAtaxxTok ch) := by
    by_contra hc
    push_neg at hc
    have hz : ((splitOnChar '/' l).map
        (·.countP (fun ch => decide (ch ≠ '/') && !isAtaxxTok ch))).sum = 0 := by
      apply List.sum_eq_zero
      intro x hx
      simp only [List.mem_map] at hx
      obtain ⟨r, hr, hrx⟩ := hx
      have := hc r hr
      omega
    omega
  obtain ⟨r, hr, hpos⟩ := this
  rw [List.any_eq_true]
  refine ⟨r, hr, ?_⟩
  have := countP_pos_any r hpos
  rw [List.any_eq_true] at this ⊢
  obtain ⟨a, ha, hp⟩ := this
  simp only [Bool.and_eq_true] at hp
  exact ⟨a, ha, hp.2⟩

theorem ataxx_fromFields_bad {rows : List (List Char)}
    (h : rows.any (fun r => r.any (fun ch => !isAtaxxTok ch)) = true)
    (stm : Bool) (hm fm : Nat) (sc wdl : List Char) :
    ∀ b, AtaxxBoard.fromFields rows stm hm fm sc wdl ≠ .ok b := by
  intro b
  unfold AtaxxBoard.fromFields
  rcases hR : ataxxRows rows.reverse 0 [0, 0, 0] with e | p
  · simp
  · exfalso
    have hrev : rows.reverse.any (fun r => r.any (fun ch => !isAtaxxTok ch)) = true := by
      rw [List.any_reverse]
      exact h
    exact ataxxRows_bad rows.reverse 0 [0, 0, 0] hrev p hR

theorem ataxx_fromStr_bad {s board_str : List Char}
    (hb : (splitWhitespaceChars ((splitOnChar '|' s).headD [])).get? 0 =
      some board_str)
    (hbad : 0 < board_str.countP (fun ch => decide (ch ≠ '/') && !isAtaxxTok ch)) :
    ∀ b, AtaxxBoard.fromStr s ≠ .ok b := by
  intro b
  unfold AtaxxBoard.fromStr
  simp only [List.get?_eq_getElem?]
  cases h1 : (splitOnChar '|' s)[1]? with
  | none => simp only [h1]; simp
  | some scoreF =>
    cases h2 : (splitOnChar '|' s)[2]? with
    | none => simp only [h1, h2]; simp
    | some wdlF =>
      have hb2 : (splitWhitespaceChars ((splitOnChar '|' s).headD []))[0]? =
          some board_str := by
        rw [← List.get?_eq_getElem?]
        exact hb
      cases h3 : (splitWhitespaceChars ((splitOnChar '|' s).headD []))[1]? with
      | none => simp only [h1, h2, hb2, h3]; simp
      | some stm_str =>
        simp only [h1, h2, hb2, h3]
        exact ataxx_fromFields_bad (splitOnChar_bad_any hbad) _ _ _ _ _ b

theorem parse_row_skip (stm : Bool) (line : List Char) (rank : Nat)
    (ch : Char) (rest : List Char) (col : Nat) (st : PState)
    (h : isChessTok ch = false) :
    parse_row stm line rank (ch :: rest) col st =
      parse_row stm line rank rest col st := by
  simp only [isChessTok, Bool.or_eq_false_iff, decide_eq_false_iff_not] at h
  have hn : pieceIndex ch = none := by
    rcases hp : pieceIndex ch with _ | p
    · rfl
    · exfalso
      rw [hp] at h
      simp at h
  rw [parse_row, if_neg h.1, hn]

/-- C6 (amended): the two text parsers disagree on unrecognized board
characters.  `AtaxxBoard::from_str` rejects any line whose board field
contains a character that is neither a piece/owner/blocked token nor an
empty-run digit (the row loop's catch-all arm), but `ChessBoard::from_str`
silently skips such a character: its `parse_row` if/else-if chain has no
else arm, so an unrecognized character leaves the state (and even the
column counter) unchanged, and parsing succeeds as if the character were
absent.  The original claim holds only for the Ataxx parser. -/
theorem board_char_rejection (s board_str : List Char)
    (hb : (splitWhitespaceChars ((splitOnChar '|' s).headD [])).get? 0 =
      some board_str)
    (hbad : 0 < board_str.countP (fun ch => decide (ch ≠ '/') && !isAtaxxTok ch)) :
    (∀ b, AtaxxBoard.fromStr s ≠ .ok b) ∧
    (∀ (stm : Bool) (line : List Char) (rank : Nat) (ch : Char)
        (rest : List Char) (col : Nat) (st : PState),
      isChessTok ch = false →
      parse_row stm line rank (ch :: rest) col st =
        parse_row stm line rank rest col st) :=
  ⟨ataxx_fromStr_bad hb hbad, parse_row_skip⟩

/-- Counterexample to the unamended C6: '?' is not a recognized chess board
character, yet the line "k?7/8/8/8/8/8/8/K7 w | 25 | 0.5" parses
successfully, to the same board as the line without the '?'. -/
theorem board_char_rejection_cx :
    isChessTok '?' = false ∧
    ChessBoard.fromStr "k?7/8/8/8/8/8/8/K7 w | 25 | 0.5".data =
      .ok ⟨72057594037927937, [213, 0, 0, 0, 0, 0, 0, 0, 0, 0, 0, 0, 0, 0, 0, 0],
        25, 1, 0, 0⟩ ∧
    ChessBoard.fromStr "k?7/8/8/8/8/8/8/K7 w | 25 | 0.5".data =
      ChessBoard.fromStr "k7/8/8/8/8/8/8/K7 w | 25 | 0.5".data :=
  ⟨by decide, by decide, by decide⟩

/-- Witness for C6 at a concrete Ataxx line with a '?' in the board field. -/
theorem board_char_rejection_witness :
    AtaxxBoard.fromStr "7/7/7/7/7/7/6? x 0 1 | 0 | 0.0".data ≠
      .ok ⟨[0, 0, 0], 0, 0, false, 1, 0, 0⟩ :=
  (board_char_rejection "7/7/7/7/7/7/6? x 0 1 | 0 | 0.0".data
      "7/7/7/7/7/7/6?".data (by decide) (by decide)).1
    ⟨[0, 0, 0], 0, 0, false, 1, 0, 0⟩

/- ----------------------------------------------------------------- -/
/- Streaming loader (src/loader.rs) and bulk conversion (src/convert.rs) -/
/- ----------------------------------------------------------------- -/

/-- Fuel-based body of `slice::chunks(k)`: successive `take k` pieces, the
last possibly shorter.  Fuel `l.length` always suffices when `0 < k`. -/
def chunksGo {α : Type} (k : Nat) : Nat → List α → List (List α)
  | 0, _ => []
  | _, [] => []
  | fuel + 1, a :: l => (a :: l).take k :: chunksGo k fuel ((a :: l).drop k)

/-- `slice::chunks(k)` (also the successive `file.read` loads of size `k`:
each read returns `min(k, remaining)` bytes and the loop stops at 0). -/
def chunks {α : Type} (k : Nat) (l : List α) : List (List α) :=
  chunksGo k l.length l

/-- Modelled from the spec: `util::to_slice_with_lifetime` (the file
`src/util.rs` is not part of the staged sources) reinterprets a byte
buffer as a contiguous array of fixed-size records with no per-record
copy; trailing bytes shorter than one record are silently dropped by the
truncated reinterpretation. -/
def chunksExactGo (sz : Nat) : Nat → List Nat → List (List Nat)
  | 0, _ => []
  | fuel + 1, bytes =>
    if 0 < sz ∧ sz ≤ bytes.length then
      bytes.take sz :: chunksExactGo sz fuel (bytes.drop sz)
    else []

/-- Modelled from the spec: the record sequence a byte buffer is
reinterpreted as (`util::to_slice_with_lifetime` on a `&[u8]`, records of
`sz` bytes each). -/
def toRecords (sz : Nat) (bytes : List Nat) : List (List Nat) :=
  chunksExactGo sz bytes.length bytes

/-- The successive byte loads `DataLoader::map_batches` reads: each
`file.read` fills at most `cap` bytes and the loop breaks on a zero-byte
read (immediately, when `cap = 0`). -/
def readLoads (cap : Nat) (file : List Nat) : List (List Nat) :=
  if cap = 0 then [] else chunks cap file

/-- Embedding of `DataLoader::map_batches` for a header-less format
(`HEADER_SIZE = 0`, as for the 32-byte board records): the sequence of
batches passed to the callback, each batch a list of `sz`-byte records.
`bufsz` is the loader's `buffer_size` in bytes. -/
def map_batches (sz bs bufsz : Nat) (file : List Nat) : List (List (List Nat)) :=
  let batches_per_load := bufsz / sz / bs
  let cap := sz * bs * batches_per_load
  ((readLoads cap file).map (fun load => chunks bs (toRecords sz load))).join

/-- The successive buffers the reader thread of
`map_batches_threaded_loading` sends: `buffer.to_vec()` is the WHOLE
`cap`-byte buffer, so a read shorter than `cap` leaves the tail of the
previous load (initially zeros) in place. -/
def threadedLoadsGo (cap : Nat) : Nat → List Nat → List Nat → List (List Nat)
  | 0, _, _ => []
  | fuel + 1, buf, rem =>
    if rem.length = 0 then []
    else
      let br := min cap rem.length
      let newbuf := rem.take br ++ buf.drop br
      newbuf :: threadedLoadsGo cap fuel newbuf (rem.drop br)

/-- The buffers delivered through the bounded channel of
`map_batches_threaded_loading` (the channel passes every sent buffer in
order, so its capacity does not affect the delivered sequence). -/
def threadedLoads (cap : Nat) (file : List Nat) : List (List Nat) :=
  if cap = 0 then [] else threadedLoadsGo cap file.length (List.replicate cap 0) file

/-- Embedding of `DataLoader::map_batches_threaded_loading` for a
header-less format: the sequence of batches passed to the callback. -/
def map_batches_threaded_loading (sz bs bufsz : Nat) (file : List Nat) :
    List (List (List Nat)) :=
  let batches_per_load := bufsz / sz / bs
  let cap := sz * bs * batches_per_load
  ((threadedLoads cap file).map (fun load => chunks bs (toRecords sz load))).join

/-- The three-record input file of the C3 divergence: records of bytes
1, 2 and 3. -/
def fileC3 : List Nat :=
  List.replicate 32 1 ++ List.replicate 32 2 ++ List.replicate 32 3

/-- C3 (refuted): with 32-byte records, batch size 1 and a 64-byte buffer
budget, the single-threaded loader delivers the three file records and
stops, but the threaded loader's final short read re-sends the stale tail
of the previous load (`buffer.to_vec()` sends the whole buffer, not
`buffer[..bytes_read]`), delivering a fourth, duplicated batch. -/
theorem threaded_loader_stale_tail :
    map_batches 32 1 64 fileC3 =
      [[List.replicate 32 1], [List.replicate 32 2], [List.replicate 32 3]] ∧
    map_batches_threaded_loading 32 1 64 fileC3 =
      [[List.replicate 32 1], [List.replicate 32 2],
        [List.replicate 32 3], [List.replicate 32 2]] ∧
    map_batches 32 1 64 fileC3 ≠ map_batches_threaded_loading 32 1 64 fileC3 :=
  ⟨by decide, by decide, by decide⟩

theorem join_cons_eq {α : Type} (a : List α) (l : List (List α)) :
    (a :: l).join = a ++ l.join := rfl

theorem join_append_eq {α : Type} (l1 l2 : List (List α)) :
    (l1 ++ l2).join = l1.join ++ l2.join := by
  induction l1 with
  | nil => simp
  | cons a t ih =>
    rw [List.cons_append, join_cons_eq, join_cons_eq, ih, List.append_assoc]

theorem chunksGo_fuel {α : Type} {k : Nat} (hk : 0 < k) :
    ∀ (n fuel : Nat) (l : List α), l.length ≤ n → l.length ≤ fuel →
      chunksGo k fuel l = chunksGo k l.length l := by
  intro n
  induction n with
  | zero =>
    intro fuel l h1 h2
    have : l = [] := List.eq_nil_of_length_eq_zero (by omega)
    subst this
    cases fuel <;> rfl
  | succ n ih =>
    intro fuel l h1 h2
    cases l with
    | nil => cases fuel <;> rfl
    | cons a t =>
      cases fuel with
      | zero => simp at h2
      | succ f =>
        have hlen : ((a :: t).drop k).length = t.length + 1 - k := by
          rw [List.length_drop, List.length_cons]
        have h1' : t.length + 1 ≤ n + 1 := by simpa using h1
        have h2' : t.length + 1 ≤ f + 1 := by simpa using h2
        have hdl : ((a :: t).drop k).length ≤ n := by omega
        have hdf : ((a :: t).drop k).length ≤ f := by omega
        have hdt : ((a :: t).drop k).length ≤ t.length := by omega
        show _ :: chunksGo k f ((a :: t).drop k) =
          _ :: chunksGo k t.length ((a :: t).drop k)
        rw [ih f ((a :: t).drop k) hdl hdf,
          ih t.length ((a :: t).drop k) hdl hdt]

theorem chunks_step {α : Type} {k : Nat} (hk : 0 < k) {l : List α} (hl : l ≠ []) :
    chunks k l = l.take k :: chunks k (l.drop k) := by
  cases l with
  | nil => exact absurd rfl hl
  | cons a t =>
    show chunksGo k (t.length + 1) (a :: t) = _
    rw [chunksGo]
    congr 1
    have hlen : ((a :: t).drop k).length = t.length + 1 - k := by
      rw [List.length_drop, List.length_cons]
    exact chunksGo_fuel hk t.length t.length ((a :: t).drop k)
      (by omega) (by omega)

theorem chunks_join {α : Type} {k : Nat} (hk : 0 < k) :
    ∀ (n : Nat) (l : List α), l.length ≤ n → (chunks k l).join = l := by
  intro n
  induction n with
  | zero =>
    intro l h
    have : l = [] := List.eq_nil_of_length_eq_zero (by omega)
    subst this
    rfl
  | succ n ih =>
    intro l h
    cases hl : l with
    | nil => rfl
    | cons a t =>
      have hne : l ≠ [] := by rw [hl]; simp
      have hlen : (l.drop k).length ≤ n := by
        rw [List.length_drop]
        rw [hl] at h ⊢
        simp only [List.length_cons] at h ⊢
        omega
      rw [← hl, chunks_step hk hne, join_cons_eq, ih (l.drop k) hlen,
        List.take_append_drop]

theorem chunks_uniform {α : Type} {k : Nat} (hk : 0 < k) :
    ∀ (n : Nat) (l : List α), l.length ≤ n → k ∣ l.length →
      (∀ c ∈ chunks k l, c.length = k) ∧ (chunks k l).length = l.length / k := by
  intro n
  induction n with
  | zero =>
    intro l h _
    have : l = [] := List.eq_nil_of_length_eq_zero (by omega)
    subst this
    exact ⟨by simp [chunks, chunksGo], by simp [chunks, chunksGo]⟩
  | succ n ih =>
    intro l h hdvd
    cases hl : l with
    | nil => exact ⟨by simp [chunks, chunksGo], by simp [chunks, chunksGo]⟩
    | cons a t =>
      rw [← hl]
      obtain ⟨m, hm⟩ := hdvd
      have hm1 : 1 ≤ m := by
        rcases Nat.eq_zero_or_pos m with h0 | h1
        · rw [h0, Nat.mul_zero] at hm
          rw [hl] at hm
          simp at hm
        · exact h1
      have hkl : k ≤ l.length := by
        rw [hm]
        calc k = k * 1 := by omega
        _ ≤ k * m := Nat.mul_le_mul_left k hm1
      have hlen_take : (l.take k).length = k := by
        rw [List.length_take]
        omega
      have hlen_drop : (l.drop k).length = k * (m - 1) := by
        rw [List.length_drop, hm]
        calc k * m - k = k * m - k * 1 := by omega
        _ = k * (m - 1) := by rw [← Nat.mul_sub]
      have hdvd2 : k ∣ (l.drop k).length := ⟨m - 1, hlen_drop⟩
      have hlen2 : (l.drop k).length ≤ n := by
        rw [hl] at h
        simp only [List.length_cons] at h
        rw [List.length_drop, hl]
        simp only [List.length_cons]
        omega
      have hrec := ih (l.drop k) hlen2 hdvd2
      have hne : l ≠ [] := by rw [hl]; simp
      rw [chunks_step hk hne]
      constructor
      · intro c hc
        rcases List.mem_cons.mp hc with hc | hc
        · rw [hc, hlen_take]
        · exact hrec.1 c hc
      · rw [List.length_cons, hrec.2, hlen_drop, hm,
          Nat.mul_div_cancel_left _ hk, Nat.mul_div_cancel_left _ hk]
        omega

theorem chunksExactGo_fuel {sz : Nat} (hsz : 0 < sz) :
    ∀ (n fuel : Nat) (l : List Nat), l.length ≤ n → l.length ≤ fuel →
      chunksExactGo sz fuel l = chunksExactGo sz l.length l := by
  intro n
  induction n with
  | zero =>
    intro fuel l h1 h2
    have : l = [] := List.eq_nil_of_length_eq_zero (by omega)
    subst this
    cases fuel with
    | zero => rfl
    | succ f =>
      show (if 0 < sz ∧ sz ≤ 0 then _ else []) = _
      rw [if_neg (by omega)]
      rfl
  | succ n ih =>
    intro fuel l h1 h2
    cases fuel with
    | zero =>
      have : l = [] := List.eq_nil_of_length_eq_zero (by omega)
      subst this
      rfl
    | succ f =>
      cases hll : l.length with
      | zero =>
        have : l = [] := List.eq_nil_of_length_eq_zero hll
        subst this
        show (if 0 < sz ∧ sz ≤ 0 then _ else []) = _
        rw [if_neg (by omega)]
        rfl
      | succ m =>
        show (if 0 < sz ∧ sz ≤ l.length then _ else []) =
          (if 0 < sz ∧ sz ≤ l.length then _ else [])
        by_cases hc : 0 < sz ∧ sz ≤ l.length
        · rw [if_pos hc, if_pos hc]
          have hld : (l.drop sz).length = l.length - sz := List.length_drop ..
          have hd1 : (l.drop sz).length ≤ n := by omega
          rw [ih f (l.drop sz) hd1 (by omega), ih m (l.drop sz) hd1 (by omega)]
        · rw [if_neg hc, if_neg hc]

theorem toRecords_small {sz : Nat} {l : List Nat} (h : l.length < sz) :
    toRecords sz l = [] := by
  unfold toRecords
  cases hl : l with
  | nil => rfl
  | cons a t =>
    show (if 0 < sz ∧ sz ≤ (a :: t).length then _ else []) = []
    rw [if_neg]
    rw [hl] at h
    omega

theorem toRecords_step {sz : Nat} (hsz : 0 < sz) {l : List Nat}
    (h : sz ≤ l.length) :
    toRecords sz l = l.take sz :: toRecords sz (l.drop sz) := by
  unfold toRecords
  cases hl : l with
  | nil =>
    rw [hl] at h
    simp at h
    omega
  | cons a t =>
    rw [← hl]
    have hlp : l.length = t.length + 1 := by rw [hl]; rfl
    rw [hlp]
    show (if 0 < sz ∧ sz ≤ l.length then _ else []) = _
    rw [if_pos ⟨hsz, h⟩]
    congr 1
    have hld : (l.drop sz).length = l.length - sz := List.length_drop ..
    exact chunksExactGo_fuel hsz t.length t.length (l.drop sz)
      (by omega) (by omega)

theorem toRecords_append {sz : Nat} (hsz : 0 < sz) :
    ∀ (n : Nat) (a b : List Nat), a.length ≤ n → sz ∣ a.length →
      toRecords sz (a ++ b) = toRecords sz a ++ toRecords sz b := by
  intro n
  induction n with
  | zero =>
    intro a b h _
    have : a = [] := List.eq_nil_of_length_eq_zero (by omega)
    subst this
    rfl
  | succ n ih =>
    intro a b h hdvd
    rcases Nat.eq_zero_or_pos a.length with h0 | hpos
    · have : a = [] := List.eq_nil_of_length_eq_zero h0
      subst this
      simp [toRecords, chunksExactGo]
    · obtain ⟨m, hm⟩ := hdvd
      have hm1 : 1 ≤ m := by
        rcases Nat.eq_zero_or_pos m with h0 | h1
        · rw [h0, Nat.mul_zero] at hm
          omega
        · exact h1
      have hsa : sz ≤ a.length := by
        rw [hm]
        calc sz = sz * 1 := by omega
        _ ≤ sz * m := Nat.mul_le_mul_left sz hm1
      have hsab : sz ≤ (a ++ b).length := by
        rw [List.length_append]
        omega
      rw [toRecords_step hsz hsab, toRecords_step hsz hsa,
        List.take_append_of_le_length hsa, List.drop_append_of_le_length hsa]
      congr 1
      have hld : (a.drop sz).length = a.length - sz := List.length_drop ..
      have hdvd2 : sz ∣ (a.drop sz).length := by
        refine ⟨m - 1, ?_⟩
        rw [hld, hm]
        calc sz * m - sz = sz * m - sz * 1 := by omega
        _ = sz * (m - 1) := by rw [← Nat.mul_sub]
      exact ih (a.drop sz) b (by omega) hdvd2

theorem toRecords_length {sz : Nat} (hsz : 0 < sz) :
    ∀ (n : Nat) (l : List Nat), l.length ≤ n → sz ∣ l.length →
      (toRecords sz l).length = l.length / sz := by
  intro n
  induction n with
  | zero =>
    intro l h _
    have : l = [] := List.eq_nil_of_length_eq_zero (by omega)
    subst this
    simp [toRecords, chunksExactGo]
  | succ n ih =>
    intro l h hdvd
    rcases Nat.eq_zero_or_pos l.length with h0 | hpos
    · have : l = [] := List.eq_nil_of_length_eq_zero h0
      subst this
      simp [toRecords, chunksExactGo]
    · obtain ⟨m, hm⟩ := hdvd
      have hm1 : 1 ≤ m := by
        rcases Nat.eq_zero_or_pos m with h0 | h1
        · rw [h0, Nat.mul_zero] at hm
          omega
        · exact h1
      have hsl : sz ≤ l.length := by
        rw [hm]
        calc sz = sz * 1 := by omega
        _ ≤ sz * m := Nat.mul_le_mul_left sz hm1
      have hld : (l.drop sz).length = l.length - sz := List.length_drop ..
      have hdvd2 : sz ∣ (l.drop sz).length := by
        refine ⟨m - 1, ?_⟩
        rw [hld, hm]
        calc sz * m - sz = sz * m - sz * 1 := by omega
        _ = sz * (m - 1) := by rw [← Nat.mul_sub]
      rw [toRecords_step hsz hsl, List.length_cons,
        ih (l.drop sz) (by omega) hdvd2, hld, hm,
        Nat.mul_div_cancel_left _ hsz]
      have : (sz * m - sz) / sz = m - 1 := by
        rw [show sz * m - sz = sz * (m - 1) by
          calc sz * m - sz = sz * m - sz * 1 := by omega
          _ = sz * (m - 1) := by rw [← Nat.mul_sub]]
        exact Nat.mul_div_cancel_left _ hsz
      rw [this]
      omega

theorem map_batches_nil (sz bs bufsz : Nat) :
    map_batches sz bs bufsz [] = [] := by
  simp only [map_batches, readLoads]
  split <;> rfl

theorem map_batches_step (sz bs bufsz : Nat) {file : List Nat}
    (hcap : 0 < sz * bs * (bufsz / sz / bs)) (hfile : file ≠ []) :
    map_batches sz bs bufsz file =
      chunks bs (toRecords sz (file.take (sz * bs * (bufsz / sz / bs)))) ++
        map_batches sz bs bufsz (file.drop (sz * bs * (bufsz / sz / bs))) := by
  simp only [map_batches, readLoads]
  rw [if_neg (by omega), if_neg (by omega),
    chunks_step hcap hfile, List.map_cons, join_cons_eq]

theorem map_batches_join (sz bs bufsz : Nat) (hsz : 0 < sz) (hbs : 0 < bs)
    (hcap : 0 < sz * bs * (bufsz / sz / bs)) :
    ∀ (n : Nat) (file : List Nat), file.length ≤ n →
      (map_batches sz bs bufsz file).join = toRecords sz file := by
  intro n
  induction n with
  | zero =>
    intro file h
    have : file = [] := List.eq_nil_of_length_eq_zero (by omega)
    subst this
    rw [map_batches_nil]
    rfl
  | succ n ih =>
    intro file h
    rcases Nat.eq_zero_or_pos file.length with h0 | hpos
    · have : file = [] := List.eq_nil_of_length_eq_zero h0
      subst this
      rw [map_batches_nil]
      rfl
    · have hfile : file ≠ [] := by
        intro hc
        rw [hc] at hpos
        simp at hpos
      rw [map_batches_step sz bs bufsz hcap hfile, join_append_eq,
        chunks_join hbs _ _ (Nat.le_refl _),
        ih _ (by rw [List.length_drop]; omega)]
      by_cases hlc : file.length ≤ sz * bs * (bufsz / sz / bs)
      · rw [List.take_of_length_le hlc, List.drop_eq_nil_of_le hlc,
          show toRecords sz ([] : List Nat) = [] from rfl, List.append_nil]
      · have hdvd : sz ∣ (file.take (sz * bs * (bufsz / sz / bs))).length := by
        -- take length = cap, a multiple of sz
          rw [List.length_take]
          refine ⟨bs * (bufsz / sz / bs), ?_⟩
          rw [Nat.min_eq_left (by omega), Nat.mul_assoc]
        rw [← toRecords_append hsz
          (file.take (sz * bs * (bufsz / sz / bs))).length _ _ (Nat.le_refl _) hdvd,
          List.take_append_drop]

theorem map_batches_uniform (sz bs bufsz : Nat) (hsz : 0 < sz) (hbs : 0 < bs)
    (hcap : 0 < sz * bs * (bufsz / sz / bs)) :
    ∀ (n : Nat) (file : List Nat), file.length ≤ n →
      (sz * bs) ∣ file.length →
      (∀ b ∈ map_batches sz bs bufsz file, b.length = bs) ∧
        (map_batches sz bs bufsz file).length = file.length / (sz * bs) := by
  intro n
  induction n with
  | zero =>
    intro file h _
    have : file = [] := List.eq_nil_of_length_eq_zero (by omega)
    subst this
    rw [map_batches_nil]
    exact ⟨by simp, by simp⟩
  | succ n ih =>
    intro file h hdvd
    rcases Nat.eq_zero_or_pos file.length with h0 | hpos
    · have : file = [] := List.eq_nil_of_length_eq_zero h0
      subst this
      rw [map_batches_nil]
      exact ⟨by simp, by simp⟩
    · have hfile : file ≠ [] := by
        intro hc
        rw [hc] at hpos
        simp at hpos
      obtain ⟨m, hm⟩ := hdvd
      have hm1 : 1 ≤ m := by
        rcases Nat.eq_zero_or_pos m with hz | h1
        · rw [hz, Nat.mul_zero] at hm
          omega
        · exact h1
      rw [map_batches_step sz bs bufsz hcap hfile]
      by_cases hlc : file.length ≤ sz * bs * (bufsz / sz / bs)
      · have htake : file.take (sz * bs * (bufsz / sz / bs)) = file :=
          List.take_of_length_le hlc
        have hdropn : file.drop (sz * bs * (bufsz / sz / bs)) = [] :=
          List.drop_eq_nil_of_le hlc
        rw [htake, hdropn, map_batches_nil, List.append_nil]
        have hrl : (toRecords sz file).length = bs * m := by
          rw [toRecords_length hsz file.length file (Nat.le_refl _)
            ⟨bs * m, by rw [hm, Nat.mul_assoc]⟩, hm, Nat.mul_assoc,
            Nat.mul_div_cancel_left _ hsz]
        have huni := chunks_uniform hbs (toRecords sz file).length
          (toRecords sz file) (Nat.le_refl _) (by rw [hrl]; exact ⟨m, rfl⟩)
        refine ⟨huni.1, ?_⟩
        rw [huni.2, hrl, Nat.mul_div_cancel_left _ hbs, hm,
          Nat.mul_div_cancel_left _ (by positivity)]
      · have hlen_take : (file.take (sz * bs * (bufsz / sz / bs))).length =
            sz * bs * (bufsz / sz / bs) := by
          rw [List.length_take]
          omega
        have hrl : (toRecords sz (file.take (sz * bs * (bufsz / sz / bs)))).length =
            bs * (bufsz / sz / bs) := by
          rw [toRecords_length hsz _ _ (Nat.le_refl _)
            ⟨bs * (bufsz / sz / bs), by rw [hlen_take, Nat.mul_assoc]⟩, hlen_take,
            Nat.mul_assoc, Nat.mul_div_cancel_left _ hsz]
        have huni := chunks_uniform hbs _
          (toRecords sz (file.take (sz * bs * (bufsz / sz / bs))))
          (Nat.le_refl _) (by rw [hrl]; exact ⟨bufsz / sz / bs, rfl⟩)
        have hlen_drop : (file.drop (sz * bs * (bufsz / sz / bs))).length =
            file.length - sz * bs * (bufsz / sz / bs) := List.length_drop ..
        have hdvd2 : (sz * bs) ∣ (file.drop (sz * bs * (bufsz / sz / bs))).length := by
          rw [hlen_drop]
          exact Nat.dvd_sub' ⟨m, hm⟩ (Dvd.intro _ rfl)
        have hrec := ih (file.drop (sz * bs * (bufsz / sz / bs)))
          (by rw [hlen_drop]; omega) hdvd2
        constructor
        · intro b hb
          rcases List.mem_append.mp hb with hb | hb
          · exact huni.1 b hb
          · exact hrec.1 b hb
        · rw [List.length_append, huni.2, hrl, hrec.2, hlen_drop,
            Nat.mul_div_cancel_left _ hbs, hm]
          obtain ⟨q, hq⟩ : ∃ q, bufsz / sz / bs = q := ⟨_, rfl⟩
          rw [hq] at hlc ⊢
          have hlt : q < m := by
            by_contra hc
            push_neg at hc
            have : sz * bs * m ≤ sz * bs * q := Nat.mul_le_mul_left _ hc
            omega
          rw [show sz * bs * m - sz * bs * q = sz * bs * (m - q) by
              rw [← Nat.mul_sub],
            Nat.mul_div_cancel_left _ (by positivity),
            Nat.mul_div_cancel_left _ (by positivity)]
          omega

/-- C7 (Scenario C): streaming a file of exactly 100,000 32-byte records
with batch size 1,000 and a 1 MB (1048576-byte) buffer budget through
`map_batches` delivers exactly 100 batches, every batch holds 1,000
records, and the concatenation of the batches in callback order is the
file's record sequence in file order. -/
theorem loader_scenario_c (file : List Nat) (h : file.length = 3200000) :
    (map_batches 32 1000 1048576 file).length = 100 ∧
    (∀ b ∈ map_batches 32 1000 1048576 file, b.length = 1000) ∧
    (map_batches 32 1000 1048576 file).join = toRecords 32 file := by
  have huni := map_batches_uniform 32 1000 1048576 (by norm_num) (by norm_num)
    (by norm_num) file.length file (Nat.le_refl _) (by rw [h]; decide)
  have hjoin := map_batches_join 32 1000 1048576 (by norm_num) (by norm_num)
    (by norm_num) file.length file (Nat.le_refl _)
  refine ⟨?_, huni.1, hjoin⟩
  rw [huni.2, h]

/-- Witness for C7 at a concrete 3,200,000-byte (100,000-record) file. -/
theorem loader_scenario_c_witness :
    (map_batches 32 1000 1048576 (List.replicate 3200000 (0 : Nat))).length = 100 :=
  (loader_scenario_c (List.replicate 3200000 0) (List.length_replicate 3200000 0)).1

/-- The per-batch fork/join conversion of `convert_from_bin`: the batch is
split into `batch.len() / threads + 1`-sized chunks, each chunk converted
by one worker, and the worker outputs written in original chunk order. -/
def convertBatch (f : List Nat → List Nat) (threads : Nat)
    (batch : List (List Nat)) : List (List Nat) :=
  ((chunks (batch.length / threads + 1) batch).map (fun c => c.map f)).join

/-- Embedding of `convert_from_bin`: the loader streams the input file
with `batch_size = max_batch_size() = buffer_size / DATA_SIZE`, and each
batch is converted by `convertBatch` and appended to the output. -/
def convert_from_bin (sz bufsz : Nat) (f : List Nat → List Nat)
    (threads : Nat) (file : List Nat) : List (List Nat) :=
  ((map_batches sz (bufsz / sz) bufsz file).map (convertBatch f threads)).join

theorem map_join_map {α β : Type} (f : α → β) (l : List (List α)) :
    (l.map (fun c => c.map f)).join = l.join.map f := by
  induction l with
  | nil => rfl
  | cons a t ih =>
    rw [List.map_cons, join_cons_eq, join_cons_eq, List.map_append, ih]

theorem convertBatch_eq (f : List Nat → List Nat) (threads : Nat)
    (batch : List (List Nat)) :
    convertBatch f threads batch = batch.map f := by
  unfold convertBatch
  rw [map_join_map, chunks_join (Nat.succ_pos _) batch.length batch (Nat.le_refl _)]

/-- C8: for every input file and conversion function, `convert_from_bin`
outputs exactly the input's record sequence converted in original order,
and the output is identical for every pair of thread counts (in
particular 1, 2 and 8): the per-batch chunking, worker conversion and
in-order join/write never reorder records.  `sz` is the record size,
`bufsz` the loader's byte budget (at least one record). -/
theorem convert_from_bin_order (sz bufsz : Nat) (f : List Nat → List Nat)
    (t1 t2 : Nat) (file : List Nat) (ht1 : 1 ≤ t1) (ht2 : 1 ≤ t2)
    (hsz : 0 < sz) (hbuf : sz ≤ bufsz) :
    convert_from_bin sz bufsz f t1 file = (toRecords sz file).map f ∧
    convert_from_bin sz bufsz f t1 file = convert_from_bin sz bufsz f t2 file := by
  have hbs : 0 < bufsz / sz := Nat.div_pos hbuf hsz
  have hcap : 0 < sz * (bufsz / sz) * (bufsz / sz / (bufsz / sz)) := by
    rw [Nat.div_self hbs]
    have := Nat.mul_pos hsz hbs
    omega
  have key : ∀ t, convert_from_bin sz bufsz f t file = (toRecords sz file).map f := by
    intro t
    unfold convert_from_bin
    have hcb : (map_batches sz (bufsz / sz) bufsz file).map (convertBatch f t) =
        (map_batches sz (bufsz / sz) bufsz file).map (fun b => b.map f) := by
      apply List.map_congr_left
      intro b _
      exact convertBatch_eq f t b
    rw [hcb, map_join_map,
      map_batches_join sz (bufsz / sz) bufsz hsz hbs hcap file.length file
        (Nat.le_refl _)]
  exact ⟨key t1, (key t1).trans (key t2).symm⟩

/-- Witness for C8 at a concrete two-record file and thread counts 2
and 8. -/
theorem convert_from_bin_order_witness :
    convert_from_bin 32 64 (fun r => r.map (· + 1)) 2
        (List.replicate 64 (0 : Nat)) =
      (toRecords 32 (List.replicate 64 (0 : Nat))).map (fun r => r.map (· + 1)) ∧
    convert_from_bin 32 64 (fun r => r.map (· + 1)) 2
        (List.replicate 64 (0 : Nat)) =
      convert_from_bin 32 64 (fun r => r.map (· + 1)) 8
        (List.replicate 64 (0 : Nat)) :=
  convert_from_bin_order 32 64 (fun r => r.map (· + 1)) 2 8
    (List.replicate 64 0) (by decide) (by decide) (by decide) (by decide)

theorem ite_board_occ (c : Prop) [Decidable c] (b1 b2 : ChessBoard) :
    (if c then b1 else b2).occ = if c then b1.occ else b2.occ := by
  split <;> rfl

theorem ite_board_score (c : Prop) [Decidable c] (b1 b2 : ChessBoard) :
    (if c then b1 else b2).score = if c then b1.score else b2.score := by
  split <;> rfl

theorem ite_board_result (c : Prop) [Decidable c] (b1 b2 : ChessBoard) :
    (if c then b1 else b2).result = if c then b1.result else b2.result := by
  split <;> rfl

theorem ite_board_pcs (c : Prop) [Decidable c] (b1 b2 : ChessBoard) :
    (if c then b1 else b2).pcs = if c then b1.pcs else b2.pcs := by
  split <;> rfl

theorem packLoop_spec :
    ∀ (l : List (Nat × Nat)) (idx : Nat) (board : ChessBoard),
      (packLoop l idx board).occ = board.occ ||| orBits l ∧
      (packLoop l idx board).score = board.score ∧
      (packLoop l idx board).result = board.result := by
  intro l
  induction l with
  | nil =>
    intro idx board
    exact ⟨by simp [packLoop, orBits_nil], rfl, rfl⟩
  | cons e rest ih =>
    intro idx board
    rcases e with ⟨p, s⟩
    simp only [packLoop]
    refine ⟨?_, (ih _ _).2.1, (ih _ _).2.2⟩
    rw [(ih _ _).1]
    simp only [orBits_cons]
    rw [← Nat.lor_assoc]

theorem convertLoop_state (stm : Nat) :
    ∀ (feats : List (Nat × Nat)) (board : ChessBoard) (acc : List (Nat × Nat)),
      ((convertLoop stm feats board acc).1.occ = board.occ ∧
        (convertLoop stm feats board acc).1.score = board.score ∧
        (convertLoop stm feats board acc).1.result = board.result) ∧
      (convertLoop stm feats board acc).2 =
        acc ++ feats.map (fun e =>
          (if stm = 1 then e.1 ^^^ 8 else e.1,
           if stm = 1 then e.2 ^^^ 56 else e.2)) := by
  intro feats
  induction feats with
  | nil =>
    intro board acc
    exact ⟨⟨rfl, rfl, rfl⟩, by simp [convertLoop]⟩
  | cons e rest ih =>
    intro board acc
    rcases e with ⟨p, s⟩
    simp only [convertLoop]
    obtain ⟨⟨ho, hs, hr⟩, hacc⟩ := ih _ _
    refine ⟨⟨?_, ?_, ?_⟩, ?_⟩
    · rw [ho, ite_board_occ, ite_board_occ]
      simp
    · rw [hs, ite_board_score, ite_board_score]
      simp
    · rw [hr, ite_board_result, ite_board_result]
      simp
    · rw [hacc, List.append_assoc, List.singleton_append, List.map_cons]

theorem fromMarlin_spec (mf : MarlinFormat) (feats : List (Nat × Nat))
    (hf : mf.features = some feats) (hlen : feats.length ≤ 32) :
    ∃ b, ChessBoard.fromMarlin mf = some b ∧
      b.occ = orBits (feats.map (fun e =>
        (if mf.stm_enp >>> 7 = 1 then e.1 ^^^ 8 else e.1,
         if mf.stm_enp >>> 7 = 1 then e.2 ^^^ 56 else e.2))) ∧
      b.score = (if mf.stm_enp >>> 7 = 1 then wrapNeg16 mf.score else mf.score) ∧
      b.result = (if mf.stm_enp >>> 7 = 1 then twoMinus8 mf.result else mf.result) := by
  simp only [ChessBoard.fromMarlin, hf]
  obtain ⟨⟨ho, hs, hr⟩, hacc⟩ := convertLoop_state (mf.stm_enp >>> 7) feats
    (if mf.stm_enp >>> 7 = 1 then
      { ChessBoard.default with score := wrapNeg16 mf.score, result := twoMinus8 mf.result }
     else { ChessBoard.default with score := mf.score, result := mf.result }) []
  rw [hacc]
  simp only [List.nil_append]
  rw [if_neg (by rw [List.length_map]; omega)]
  refine ⟨_, rfl, ?_, ?_, ?_⟩
  · rw [(packLoop_spec _ _ _).1, ho]
    by_cases hstm : mf.stm_enp >>> 7 = 1
    · rw [if_pos hstm]
      show (0 : Nat) ||| _ = _
      rw [Nat.zero_or]
      exact orBits_perm (List.mergeSort_perm _ _)
    · rw [if_neg hstm]
      show (0 : Nat) ||| _ = _
      rw [Nat.zero_or]
      exact orBits_perm (List.mergeSort_perm _ _)
  · rw [(packLoop_spec _ _ _).2.1, hs]
    by_cases hstm : mf.stm_enp >>> 7 = 1
    · rw [if_pos hstm, if_pos hstm]
    · rw [if_neg hstm, if_neg hstm]
  · rw [(packLoop_spec _ _ _).2.2, hr]
    by_cases hstm : mf.stm_enp >>> 7 = 1
    · rw [if_pos hstm, if_pos hstm]
    · rw [if_neg hstm, if_neg hstm]

theorem mirrorEv_false_id (l : List (Nat × Nat)) : l.map (mirrorEv false) = l := by
  have h : ∀ e : Nat × Nat, mirrorEv false e = e := by
    intro e
    rcases e with ⟨p, s⟩
    rfl
  rw [List.map_congr_left fun e _ => h e]
  exact List.map_id l

theorem chess_fromFields_spec (rows : List (List Char)) (stm : Bool)
    (sc wdl line : List Char) (v : Int) (r : Nat)
    (hsc : parseI16 sc = some v) (hw : parseWdl wdl = some r)
    (hlen : (rowsEvents stm (if stm then rows else rows.reverse) 0).length ≤ 32) :
    ∃ b, ChessBoard.fromFields rows stm sc wdl line = .ok b ∧
      b.occ = orBits ((rowsEvents stm
        (if stm then rows else rows.reverse) 0).map (mirrorEv stm)) ∧
      b.score = (if stm then wrapNeg16 v else v) ∧
      b.result = (if stm then 2 - r else r) := by
  simp only [ChessBoard.fromFields]
  cases stm with
  | true =>
    simp only [if_true]
    obtain ⟨st', hrun, hidx, hocc, hs, hr, hk⟩ :=
      (parseRowsGo_spec true line rows 0 ⟨0, ChessBoard.default⟩ (by simp)).2
        (by simpa using hlen)
    rw [hrun, hsc, hw]
    refine ⟨_, rfl, ?_, rfl, rfl⟩
    show st'.board.occ = _
    rw [hocc]
    show (0 : Nat) ||| _ = _
    rw [Nat.zero_or]
  | false =>
    simp only [Bool.false_eq_true, if_false]
    obtain ⟨st', hrun, hidx, hocc, hs, hr, hk⟩ :=
      (parseRowsGo_spec false line rows.reverse 0 ⟨0, ChessBoard.default⟩ (by simp)).2
        (by simpa using hlen)
    rw [hrun, hsc, hw]
    refine ⟨_, rfl, ?_, rfl, rfl⟩
    show st'.board.occ = _
    rw [hocc]
    show (0 : Nat) ||| _ = _
    rw [Nat.zero_or]

theorem ataxx_fromFields_mirror (rows : List (List Char)) (hm fm : Nat)
    (sc wdl : List Char) :
    AtaxxBoard.fromFields rows true hm fm sc wdl =
      (AtaxxBoard.fromFields rows false hm fm sc wdl).map
        (fun b => ⟨swap01 b.bbs, wrapNeg16 b.score, 2 - b.result, true,
          b.fullm, b.halfm, b.extra⟩) := by
  unfold AtaxxBoard.fromFields
  rcases hR : ataxxRows rows.reverse 0 [0, 0, 0] with e | p
  · rfl
  rcases p with ⟨idx, bbs⟩
  rcases hsc : parseI16 sc with _ | v
  · rfl
  rcases hw : parseWdl wdl with _ | r
  · rfl
  rfl

theorem ataxx_fromFields_plain (rows : List (List Char)) (hm fm : Nat)
    (sc wdl : List Char) (idx : Nat) (bbs : List Nat) (v : Int) (r : Nat)
    (hR : ataxxRows rows.reverse 0 [0, 0, 0] = .ok (idx, bbs))
    (hsc : parseI16 sc = some v) (hw : parseWdl wdl = some r) :
    AtaxxBoard.fromFields rows false hm fm sc wdl =
      .ok ⟨bbs, v, r, false, fm, hm, 0⟩ := by
  simp only [AtaxxBoard.fromFields, hR, hsc, hw]
  rfl

/-- C1 (amended): every record-producing operation stores the record in
the side-to-move perspective, with the score negated BY WRAPPING i16
negation (`wrapNeg16`, which fixes -32768) rather than exact integer
negation.  (1) Ataxx text with the second player to move: relative to the
first-player parse of the same fields, the stored record swaps the two
owner bitboard slots, wrap-negates the score and replaces the outcome by
2 - outcome.  (2) Ataxx with the first player to move stores the parsed
bitboards, score and outcome unchanged.  (3)/(4) Chess text: with "b" to
move the stored occupancy is the OR over the raw reads with every square
XOR 56, the score is the wrap-negated parsed score and the outcome
2 - parsed outcome; with "w" to move occupancy, score and outcome are the
raw reads unchanged.  (5)/(6) Legacy Marlin conversion: with the
second-player bit set the occupancy is the OR over the decoded features
with squares XOR 56, the score wrap-negated, the outcome the wrapping
2 - outcome; with the bit clear all three are unchanged. -/
theorem side_to_move_mirroring :
    (∀ (rows : List (List Char)) (hm fm : Nat) (sc wdl : List Char),
      AtaxxBoard.fromFields rows true hm fm sc wdl =
        (AtaxxBoard.fromFields rows false hm fm sc wdl).map
          (fun b => ⟨swap01 b.bbs, wrapNeg16 b.score, 2 - b.result, true,
            b.fullm, b.halfm, b.extra⟩)) ∧
    (∀ (rows : List (List Char)) (hm fm : Nat) (sc wdl : List Char)
        (idx : Nat) (bbs : List Nat) (v : Int) (r : Nat),
      ataxxRows rows.reverse 0 [0, 0, 0] = .ok (idx, bbs) →
      parseI16 sc = some v → parseWdl wdl = some r →
      AtaxxBoard.fromFields rows false hm fm sc wdl =
        .ok ⟨bbs, v, r, false, fm, hm, 0⟩) ∧
    (∀ (rows : List (List Char)) (sc wdl line : List Char) (v : Int) (r : Nat),
      parseI16 sc = some v → parseWdl wdl = some r →
      (rowsEvents true rows 0).length ≤ 32 →
      ∃ b, ChessBoard.fromFields rows true sc wdl line = .ok b ∧
        b.score = wrapNeg16 v ∧ b.result = 2 - r ∧
        b.occ = orBits ((rowsEvents true rows 0).map (mirrorEv true))) ∧
    (∀ (rows : List (List Char)) (sc wdl line : List Char) (v : Int) (r : Nat),
      parseI16 sc = some v → parseWdl wdl = some r →
      (rowsEvents false rows.reverse 0).length ≤ 32 →
      ∃ b, ChessBoard.fromFields rows false sc wdl line = .ok b ∧
        b.score = v ∧ b.result = r ∧
        b.occ = orBits (rowsEvents false rows.reverse 0)) ∧
    (∀ (mf : MarlinFormat) (feats : List (Nat × Nat)),
      mf.features = some feats → feats.length ≤ 32 → mf.stm_enp >>> 7 = 1 →
      ∃ b, ChessBoard.fromMarlin mf = some b ∧
        b.score = wrapNeg16 mf.score ∧ b.result = twoMinus8 mf.result ∧
        b.occ = orBits (feats.map (fun e => (e.1 ^^^ 8, e.2 ^^^ 56)))) ∧
    (∀ (mf : MarlinFormat) (feats : List (Nat × Nat)),
      mf.features = some feats → feats.length ≤ 32 → mf.stm_enp >>> 7 = 0 →
      ∃ b, ChessBoard.fromMarlin mf = some b ∧
        b.score = mf.score ∧ b.result = mf.result ∧
        b.occ = orBits feats) := by
  refine ⟨ataxx_fromFields_mirror, ataxx_fromFields_plain, ?_, ?_, ?_, ?_⟩
  · intro rows sc wdl line v r hsc hw hlen
    obtain ⟨b, h1, h2, h3, h4⟩ :=
      chess_fromFields_spec rows true sc wdl line v r hsc hw (by simpa using hlen)
    exact ⟨b, h1, h3, h4, by simpa using h2⟩
  · intro rows sc wdl line v r hsc hw hlen
    obtain ⟨b, h1, h2, h3, h4⟩ :=
      chess_fromFields_spec rows false sc wdl line v r hsc hw (by simpa using hlen)
    refine ⟨b, h1, h3, h4, ?_⟩
    rw [h2]
    show orBits ((rowsEvents false rows.reverse 0).map (mirrorEv false)) = _
    rw [mirrorEv_false_id]
  · intro mf feats hf hlen hstm
    obtain ⟨b, h1, h2, h3, h4⟩ := fromMarlin_spec mf feats hf hlen
    rw [hstm] at h2 h3 h4
    norm_num at h2 h3 h4
    exact ⟨b, h1, h3, h4, h2⟩
  · intro mf feats hf hlen hstm
    obtain ⟨b, h1, h2, h3, h4⟩ := fromMarlin_spec mf feats hf hlen
    rw [hstm] at h2 h3 h4
    norm_num at h2 h3 h4
    exact ⟨b, h1, h3, h4, h2⟩

/-- Counterexample to the unamended C1: the line
"k7/8/8/8/8/8/8/K7 b | -32768 | 1.0" marks the second player to move and
its score field reads -32768, but the stored score is -32768 itself, not
the true negation 32768 (unrepresentable in i16): i16 negation wraps. -/
theorem side_to_move_mirroring_cx :
    ChessBoard.fromStr "k7/8/8/8/8/8/8/K7 b | -32768 | 1.0".data =
      .ok ⟨72057594037927937, [213, 0, 0, 0, 0, 0, 0, 0, 0, 0, 0, 0, 0, 0, 0, 0],
        -32768, 0, 0, 0⟩ ∧
    parseI16 "-32768".data = some (-32768) ∧
    wrapNeg16 (-32768) = -32768 ∧
    -(-32768 : Int) ≠ (-32768 : Int) :=
  ⟨by decide, by decide, by decide, by decide⟩

/-- Witness for C1 at a concrete empty Ataxx board with the first player
to move. -/
theorem side_to_move_mirroring_witness :
    AtaxxBoard.fromFields [['7'], ['7'], ['7'], ['7'], ['7'], ['7'], ['7']]
        false 0 1 "12".data "0.5".data =
      .ok ⟨[0, 0, 0], 12, 1, false, 1, 0, 0⟩ :=
  side_to_move_mirroring.2.1 [['7'], ['7'], ['7'], ['7'], ['7'], ['7'], ['7']]
    0 1 "12".data "0.5".data 49 [0, 0, 0] 12 1 (by decide) (by decide) (by decide)
